import Mathlib

/-!
Verification of the gohash structural-hashing algorithm (package `gohash`,
file `gohash.go`, `walkObject` variant, plus the `Hash`/`Short` helpers).

The embedding models Go runtime values reachable through `reflect` as the
inductive type `GoVal`.  Pointer indirection is modelled with an explicit
heap (`Heap`), mapping addresses to cells; a cell is either a plain pointee
value or an interface slot boxing a dynamic value.  Slices and maps carry
their identity (`reflect.Value.Pointer`) as an explicit `Nat` token together
with their contents.  The hash sink is modelled as the byte stream written
to it (`St.out`): two runs produce the same digest exactly when they write
the same stream into structurally equivalent sinks.

Scope notes, matching `gohash.go`:
* floating-point values (reflect kinds 13/14) are carried as the IEEE-754
  binary64 bit pattern of `rv.Float()` (exact for `float32` inputs, whose
  conversion to `float64` is lossless and order-preserving); the `<`/`>`
  comparisons of `compareMapKeys` are implemented bit-exactly, including
  the NaN behavior (every comparison with a NaN is false); complex values
  (kinds 15/16) carry the two binary64 patterns of `rv.Complex()`;
* the shortest-round decimal rendering `fmt` uses for floats inside `%v`
  is not reproduced: `render` uses an injective stand-in of the bit
  pattern there.  No theorem depends on the stand-in's text — float keys
  are compared by the dedicated Float branch, and the fallback branch's
  properties proved here use only that `render` is a function;
* machine integers written by `binary.Write` are modelled as `Int`/`Nat`
  reduced mod 2^64, little-endian, exactly as `encoding/binary` lays out
  `int64`/`uint64`;
* the Go error wrapping (`fmt.Errorf("slice: %w", err)`) is dropped: only
  the underlying error kind is kept, which `%w` preserves;
* `fmt.Sprintf("%v", x)` (used by `compareMapKeys` as a fallback) is
  modelled by `render`, following `fmt`'s documented verbs for the value
  shapes that can occur as map keys.
-/

namespace GohashFV

/-- UTF-8 bytes of a string, as `hasher.Write([]byte(s))` receives them. -/
def strBytes (s : String) : List UInt8 :=
  s.toUTF8.data.toList

/-- Little-endian 8-byte layout of a `uint64`, as written by
`binary.Write(hasher, binary.LittleEndian, v)`. -/
def u64le (n : Nat) : List UInt8 :=
  (List.range 8).map fun k => UInt8.ofNat (n / 256 ^ k % 256)

/-- Little-endian 8-byte two's-complement layout of an `int64`. -/
def i64le (i : Int) : List UInt8 :=
  u64le (i.emod (2 ^ 64)).toNat

/-- A `reflect.Type` as the algorithm consumes it: its `String()` rendering
and whether its `Kind()` is `reflect.Interface`. -/
structure RType where
  name : String
  isIface : Bool
deriving DecidableEq, Repr

/-- A Go runtime value as seen through `reflect.ValueOf` at a `walkObject`
call boundary.  `.Interface()` unwraps interfaces, so an input value is
never itself of interface kind; interface slots occur only as pointees
(see `Cell`).  Reference-like values (`vPtr`, `vSlice`, `vMap`) carry an
optional identity: `none` models a nil reference.  Unexported struct fields
carry `false` in their flag (`CanInterface`).  The `k` parameter on the
integer constructors is the concrete `reflect.Kind` (2-6 signed, 7-12
unsigned incl. `Uintptr`, 13/14 floats, 15/16 complex), and `ty` is
`rv.Type().String()`.  A float carries the binary64 bit pattern of
`rv.Float()`; a complex value the patterns of `real`/`imag` of
`rv.Complex()`. -/
inductive GoVal where
  | vBool (ty : String) (b : Bool)
  | vInt (k : Nat) (ty : String) (val : Int)
  | vUint (k : Nat) (ty : String) (val : Nat)
  | vFloat (k : Nat) (ty : String) (bits : Nat)
  | vComplex (k : Nat) (ty : String) (reBits imBits : Nat)
  | vString (ty : String) (s : String)
  | vArray (ty : String) (elems : List GoVal)
  | vChan (ty : String)
  | vFunc (ty : String)
  | vMap (ty : String) (ref : Option (Nat × List (GoVal × GoVal)))
  | vPtr (elem : RType) (addr : Option Nat)
  | vSlice (ty : String) (ref : Option (Nat × List GoVal))
  | vStruct (ty : String) (pkg : String) (fields : List (Bool × GoVal))
  | vNil
deriving Repr

/-- `reflect.Kind` numbering (Invalid 0, Bool 1, Int 2 ... Struct 25). -/
def GoVal.kind : GoVal → Nat
  | .vNil => 0
  | .vBool _ _ => 1
  | .vInt k _ _ => k
  | .vUint k _ _ => k
  | .vFloat k _ _ => k
  | .vComplex k _ _ _ => k
  | .vArray _ _ => 17
  | .vChan _ => 18
  | .vFunc _ => 19
  | .vMap _ _ => 21
  | .vPtr _ _ => 22
  | .vSlice _ _ => 23
  | .vString _ _ => 24
  | .vStruct _ _ _ => 25

/-- `rv.Type().String()` (also what `%T` prints; `%T` of an untyped nil is
`<nil>`).  An unnamed pointer type renders as `*` followed by the pointee
type. -/
def GoVal.tyName : GoVal → String
  | .vNil => "<nil>"
  | .vBool ty _ => ty
  | .vInt _ ty _ => ty
  | .vUint _ ty _ => ty
  | .vFloat _ ty _ => ty
  | .vComplex _ ty _ _ => ty
  | .vString ty _ => ty
  | .vArray ty _ => ty
  | .vChan ty => ty
  | .vFunc ty => ty
  | .vMap ty _ => ty
  | .vPtr e _ => "*" ++ e.name
  | .vSlice ty _ => ty
  | .vStruct ty _ _ => ty

/-- `rv.IsNil()` for the reference kinds the cycle guard inspects. -/
def GoVal.isNilRef : GoVal → Bool
  | .vPtr _ none => true
  | .vMap _ none => true
  | .vSlice _ none => true
  | _ => false

/-- `rv.Pointer()`: the identity token of a non-nil reference-like value. -/
def GoVal.refId : GoVal → Option Nat
  | .vPtr _ (some a) => some a
  | .vMap _ (some r) => some r.1
  | .vSlice _ (some r) => some r.1
  | _ => none

/-- A heap cell: what a non-nil pointer's address refers to.  A pointer to
a concrete type refers to a plain value; a pointer to an interface type
refers to an interface slot, boxing a dynamic value or holding nil. -/
inductive Cell where
  | direct (v : GoVal)
  | ifaceBox (o : Option GoVal)

/-- The heap: pointee cell at every address. -/
def Heap := Nat → Cell

instance {ε α : Type} [DecidableEq ε] [DecidableEq α] : DecidableEq (Except ε α) := fun a b =>
  match a, b with
  | .ok x, .ok y =>
    if h : x = y then .isTrue (by rw [h]) else .isFalse (by intro hh; cases hh; exact h rfl)
  | .error x, .error y =>
    if h : x = y then .isTrue (by rw [h]) else .isFalse (by intro hh; cases hh; exact h rfl)
  | .ok _, .error _ => .isFalse (by intro hh; cases hh)
  | .error _, .ok _ => .isFalse (by intro hh; cases hh)

/-- A discriminant for the constructor of a `GoVal`, used to state that two
values of the same reported type string have the same shape (always true of
real `reflect` values, where the type determines the kind). -/
def GoVal.ctorTag : GoVal → Nat
  | .vBool _ _ => 1
  | .vInt _ _ _ => 2
  | .vUint _ _ _ => 3
  | .vString _ _ => 4
  | .vArray _ _ => 5
  | .vChan _ => 6
  | .vFunc _ => 7
  | .vMap _ _ => 8
  | .vPtr _ _ => 9
  | .vSlice _ _ => 10
  | .vStruct _ _ _ => 11
  | .vNil => 12
  | .vFloat _ _ _ => 13
  | .vComplex _ _ _ _ => 14

/-! ### IEEE-754 binary64 comparison, on bit patterns -/

/-- The 11 exponent bits of a binary64 pattern. -/
def f64Exp (b : Nat) : Nat := b / 2 ^ 52 % 2 ^ 11

/-- The 52 fraction bits of a binary64 pattern. -/
def f64Frac (b : Nat) : Nat := b % 2 ^ 52

/-- NaN: all-ones exponent with a nonzero fraction. -/
def f64IsNaN (b : Nat) : Bool := f64Exp b = 2047 && f64Frac b != 0

/-- IEEE-754 `<` on binary64 bit patterns: false whenever either operand
is NaN; otherwise binary64 values (zeros, subnormals, normals and
infinities alike) are ordered sign-magnitude — equal magnitudes of
opposite signs are the two zeros, which compare equal. -/
def f64Lt (a b : Nat) : Bool :=
  if f64IsNaN a || f64IsNaN b then false
  else
    let sa := a / 2 ^ 63 % 2
    let sb := b / 2 ^ 63 % 2
    let ma := a % 2 ^ 63
    let mb := b % 2 ^ 63
    if sa = 1 then
      if sb = 1 then decide (mb < ma) else decide (ma ≠ 0 ∨ mb ≠ 0)
    else
      if sb = 1 then false else decide (ma < mb)

/-- The Float branch of `compareMapKeys`: `if aFloat < bFloat ... else if
aFloat > bFloat ...`, on the `rv.Float()` values. -/
def cmpFloat (a b : Nat) : Int :=
  if f64Lt a b then -1 else if f64Lt b a then 1 else 0

/-- The linearisation of a non-NaN binary64 pattern: signed magnitude.
Both zeros map to 0. -/
def f64ToLin (b : Nat) : Int :=
  if b / 2 ^ 63 % 2 = 1 then -(b % 2 ^ 63 : Int) else (b % 2 ^ 63 : Int)

/-- A key is NaN-free when it is not a floating-point NaN (always true of
non-float keys; NaN inside a composite key is harmless — the comparator
reaches it only through the textual fallback). -/
def GoVal.noNaN : GoVal → Bool
  | .vFloat _ _ bits => !f64IsNaN bits
  | _ => true

/- `fmt.Sprintf("%v", x)`, for the shapes that can reach the fallback of
`compareMapKeys`.  Struct values print as `\x7bf1 f2 ...\x7d` with fields
(exported and unexported) separated by single spaces; strings print bare;
integers print in decimal; booleans as `true`/`false`; a pointer prints its
address in hex with a `0x` prefix (stable within one run, which is all the
comparator needs); nil prints `<nil>`.  Map/slice/chan/func renderings are
given for totality; they cannot occur as Go map keys (not comparable) or do
not affect any claim. -/
mutual

/-- See the comment above this `mutual` block. -/
def render : GoVal → String
  | .vNil => "<nil>"
  | .vBool _ b => if b then "true" else "false"
  | .vInt _ _ i => toString i
  | .vUint _ _ n => toString n
  | .vFloat _ _ bits => "0f" ++ String.mk (Nat.toDigits 16 bits)
  | .vComplex _ _ re im =>
    "(0f" ++ String.mk (Nat.toDigits 16 re) ++ "+0f" ++ String.mk (Nat.toDigits 16 im) ++ "i)"
  | .vString _ s => s
  | .vChan _ => "<chan>"
  | .vFunc _ => "<func>"
  | .vPtr _ none => "<nil>"
  | .vPtr _ (some a) => "0x" ++ String.mk (Nat.toDigits 16 a)
  | .vArray _ es => "[" ++ String.intercalate " " (renderList es) ++ "]"
  | .vSlice _ none => "[]"
  | .vSlice _ (some r) => "[" ++ String.intercalate " " (renderList r.2) ++ "]"
  | .vMap _ none => "map[]"
  | .vMap _ (some r) => "map[" ++ String.intercalate " " (renderPairs r.2) ++ "]"
  | .vStruct _ _ fs => "\x7b" ++ String.intercalate " " (renderFields fs) ++ "\x7d"

def renderList : List GoVal → List String
  | [] => []
  | v :: rest => render v :: renderList rest

def renderPairs : List (GoVal × GoVal) → List String
  | [] => []
  | p :: rest => (render p.1 ++ ":" ++ render p.2) :: renderPairs rest

def renderFields : List (Bool × GoVal) → List String
  | [] => []
  | p :: rest => render p.2 :: renderFields rest

end

/-- Lexicographic strict order on character lists, by codepoint.  Go
compares strings byte-lexicographically over their UTF-8 bytes; UTF-8 is
order-preserving, so codepoint-lexicographic order is the same order. -/
def charListLt : List Char → List Char → Bool
  | [], [] => false
  | [], _ :: _ => true
  | _ :: _, [] => false
  | a :: as, b :: bs =>
    if a.toNat < b.toNat then true
    else if b.toNat < a.toNat then false
    else charListLt as bs

/-- Go's `<` on strings. -/
def strLt (a b : String) : Bool :=
  charListLt a.data b.data

/-- Three-way comparison on strings, as `gohash.go` writes it with `<`/`>`. -/
def cmpStr (a b : String) : Int :=
  if strLt a b then -1 else if strLt b a then 1 else 0

/-- Three-way comparison on signed integers (`a.Int()` vs `b.Int()`). -/
def cmpInt (a b : Int) : Int :=
  if a < b then -1 else if b < a then 1 else 0

/-- Three-way comparison on unsigned integers (`a.Uint()` vs `b.Uint()`). -/
def cmpNat (a b : Nat) : Int :=
  if a < b then -1 else if b < a then 1 else 0

/-- Three-way comparison on booleans: false before true. -/
def cmpBool (a b : Bool) : Int :=
  if !a && b then -1 else if a && !b then 1 else 0

/-- `compareMapKeys` from `gohash.go`: first by `Type().String()`, then,
for keys of the same type, by value for strings / signed integers /
unsigned integers / booleans, and otherwise by `fmt.Sprintf("%v", ...)`.
The source dispatches on `a.Kind()` alone; for real `reflect` values equal
type strings force equal kinds, so dispatching on the shapes of both keys
is the same function on every reachable pair (theorems that compare
heterogeneously shaped keys carry a coherence hypothesis making this
explicit). -/
def innerCmp (a b : GoVal) : Int :=
  match a, b with
  | .vString _ x, .vString _ y => cmpStr x y
  | .vInt _ _ x, .vInt _ _ y => cmpInt x y
  | .vUint _ _ x, .vUint _ _ y => cmpNat x y
  | .vFloat _ _ x, .vFloat _ _ y => cmpFloat x y
  | .vBool _ x, .vBool _ y => cmpBool x y
  | _, _ => cmpStr (render a) (render b)

def compareMapKeys (a b : GoVal) : Int :=
  if strLt a.tyName b.tyName then -1
  else if strLt b.tyName a.tyName then 1
  else innerCmp a b

/-- `sort.Slice(keys, func(i, j) { compareMapKeys(keys[i], keys[j]) < 0 })`
orders entries so that no later key compares strictly below an earlier one.
The insertion sort below produces exactly such an order (the order is
unique whenever the keys are pairwise strictly comparable, which is the
situation of every determinism claim). -/
def keyLe (p q : GoVal × GoVal) : Bool :=
  compareMapKeys p.1 q.1 ≤ 0

/-- Insert one map entry into an already-ordered list of entries. -/
def insertEntry (p : GoVal × GoVal) : List (GoVal × GoVal) → List (GoVal × GoVal)
  | [] => [p]
  | q :: rest => if keyLe p q then p :: q :: rest else q :: insertEntry p rest

/-- Sort a map's entries by `compareMapKeys` on the keys. -/
def sortEntries : List (GoVal × GoVal) → List (GoVal × GoVal)
  | [] => []
  | p :: rest => insertEntry p (sortEntries rest)

/-- The errors `walkObject` can produce.  `depthExceeded` is the
`"depth exceeded for type %T"` failure, `ptrOverflow` the
`"input '%v' of type %T has too many pointers"` failure; both carry the
`%T` type string.  Context wrapping (`"slice: %w"` etc.) is dropped, as it
preserves the wrapped error.  `outOfFuel` is an artifact of the embedding:
the recursion is given explicit fuel, and a separate theorem shows fuel
102 can never run out, which is the finite-stack-depth guarantee. -/
inductive Err where
  | depthExceeded (ty : String)
  | ptrOverflow (ty : String)
  | outOfFuel
deriving DecidableEq, Repr

/-- The mutable state of one hashing call: the byte stream written to the
hash sink so far, and the visited set (`map[uintptr]bool`, kept as the
list of marked identities). -/
structure St where
  out : List UInt8
  vis : List Nat
deriving DecidableEq, Repr

/-- `hasher.Write(bs)`. -/
def wr (st : St) (bs : List UInt8) : St :=
  ⟨st.out ++ bs, st.vis⟩

/-- The pointer/interface dereference loop of `walkObject` (lines 124-153):
starting from the value in hand, repeatedly dereference pointers (counting
each into `pDepth` and recording the declared pointee type into `rt`) and
unwrap interfaces (recording the dynamic type into `rt` when the dynamic
value exists), until a non-pointer, non-interface value or an invalid
(nil-derived) value remains.  The loop checks `pDepth >= 100` at the top
of every iteration and fails with the too-many-pointers error.  Here
`gas = 100 - pDepth`; the interface unwrap of the source does not advance
`pDepth`, and is fused into the step that produced the interface value
(the re-checks of the unchanged `pDepth` in between cannot change the
outcome).  Returns `none` for an invalid final value (plus the last `rt`),
or the concrete final value. -/
def deref (h : Heap) (origTy : String) :
    GoVal → Option RType → Nat → Except Err (Option GoVal × Option RType)
  | _, _, 0 => .error (.ptrOverflow origTy)
  | .vPtr e addr, _, gas + 1 =>
    match addr with
    | none =>
      if gas = 0 then .error (.ptrOverflow origTy) else .ok (none, some e)
    | some a =>
      match h a with
      | .direct w => deref h origTy w (some e) gas
      | .ifaceBox none =>
        if gas = 0 then .error (.ptrOverflow origTy) else .ok (none, some e)
      | .ifaceBox (some g) => deref h origTy g (some ⟨g.tyName, false⟩) gas
  | v, rt, _ + 1 => .ok (some v, rt)

/-- Run a walk step on each element of a list in order, threading the
state and aborting on the first error (the slice/struct loops). -/
def walkSeq (f : GoVal → Nat → St → Except Err St) (d : Nat) :
    List GoVal → St → Except Err St
  | [], st => .ok st
  | v :: rest, st =>
    match f v d st with
    | .error e => .error e
    | .ok st1 => walkSeq f d rest st1

/-- Run a walk step on each key, then its value, in order (the map loop). -/
def walkPairs (f : GoVal → Nat → St → Except Err St) (d : Nat) :
    List (GoVal × GoVal) → St → Except Err St
  | [], st => .ok st
  | p :: rest, st =>
    match f p.1 d st with
    | .error e => .error e
    | .ok st1 =>
      match f p.2 d st1 with
      | .error e => .error e
      | .ok st2 => walkPairs f d rest st2

/-- The exported (`CanInterface`) fields, in declared order; unexported
fields are silently skipped inside the struct loop. -/
def exportedFields (fs : List (Bool × GoVal)) : List GoVal :=
  (fs.filter fun p => p.1).map fun p => p.2

/-- The cycle-guard prologue of `walkObject` (lines 101-118): on the
pointer-like kinds, a nil reference returns early (`.inl`), a nil pointer
writing its own type string; an already-visited identity returns early
without writing; a fresh identity is marked before continuing (`.inr`). -/
def entryGuard (input : GoVal) (st0 : St) : Except Err St ⊕ St :=
  if input.kind = 22 ∨ input.kind = 21 ∨ input.kind = 23 ∨ input.kind = 20 then
    if input.isNilRef then
      .inl (if input.kind = 22 then .ok (wr st0 (strBytes input.tyName)) else .ok st0)
    else
      match input.refId with
      | some i =>
        if i ∈ st0.vis then .inl (.ok st0) else .inr ⟨st0.out, i :: st0.vis⟩
      | none => .inr st0
  else .inr st0

/-- `walkObject(input, hasher, depth, visited)` with explicit fuel.  The
structure follows the source exactly: the `depth > 100` check; the cycle
guard (`entryGuard`); the dereference loop (`deref`); then the switch on
the resolved kind.  Scalars write one kind-tag byte then a fixed-width
little-endian payload; strings write the tag then their raw bytes; empty
sequences/maps write only their type string; nonempty ones write the tag
then their contents (map entries in `compareMapKeys` order); structs write
type string and package path, then, if any fields exist, the tag and the
exported fields; any kind without a case (func, chan, resolved invalid
with no concrete declared type) falls through and writes nothing,
returning success.

`resolvedStep` is the switch on the dereferenced value (`vt[0] = kind`
then the per-kind cases), parameterized by the recursive call for the
children.  `res` is the dereference loop's outcome: `none` is
`reflect.Invalid` (with the declared type `rt`), `some v` the concrete
value. -/
def resolvedStep (h : Heap) (rec : GoVal → Nat → St → Except Err St) (depth : Nat)
    (res : Option GoVal × Option RType) (st : St) : Except Err St :=
  match res with
  | (none, rt) =>
    match rt with
    | some r => if r.isIface then .ok st else .ok (wr st (strBytes r.name))
    | none => .ok st
  | (some v, _) =>
    let tag : UInt8 := UInt8.ofNat v.kind
    match v with
    | .vUint _ _ n => .ok (wr st (tag :: u64le n))
    | .vInt _ _ i => .ok (wr st (tag :: i64le i))
    | .vFloat _ _ bits => .ok (wr st (tag :: u64le bits))
    | .vComplex _ _ re im => .ok (wr st (tag :: (u64le re ++ u64le im)))
    | .vBool _ b => .ok (wr st [tag, if b then 1 else 0])
    | .vString _ s => .ok (wr st (tag :: strBytes s))
    | .vArray ty es =>
      if es.isEmpty then .ok (wr st (strBytes ty))
      else walkSeq rec (depth + 1) es (wr st [tag])
    | .vSlice ty ref =>
      let es := match ref with | some r => r.2 | none => []
      if es.isEmpty then .ok (wr st (strBytes ty))
      else walkSeq rec (depth + 1) es (wr st [tag])
    | .vMap ty ref =>
      let en := match ref with | some r => r.2 | none => []
      if en.isEmpty then .ok (wr st (strBytes ty))
      else walkPairs rec (depth + 1) (sortEntries en) (wr st [tag])
    | .vStruct ty pkg fs =>
      let st1 := wr st (strBytes ty ++ strBytes pkg)
      if fs.isEmpty then .ok st1
      else walkSeq rec (depth + 1) (exportedFields fs) (wr st1 [tag])
    | _ => .ok st

def walkObject (h : Heap) : Nat → GoVal → Nat → St → Except Err St
  | 0, _, _, _ => .error .outOfFuel
  | fuel + 1, input, depth, st0 =>
    if depth > 100 then .error (.depthExceeded input.tyName) else
    match entryGuard input st0 with
    | .inl r => r
    | .inr st =>
      match deref h input.tyName input none 100 with
      | .error e => .error e
      | .ok res => resolvedStep h (fun v d s => walkObject h fuel v d s) depth res st

/-- `From(input, hasher)`: fresh visited set, walk from depth 0, and on
success the digest is whatever the sink finalizes from the written stream;
the stream itself is returned as the digest.  Fuel 102 is provably enough
for every input (see `walkObject_fuel_enough`). -/
def From (h : Heap) (input : GoVal) : Except Err (List UInt8) :=
  match walkObject h 102 input 0 ⟨[], []⟩ with
  | .error e => .error e
  | .ok st => .ok st.out

/-! ### `Hash` and `Short` (the unnamed helper file) -/

/-- A `type Hash []byte` slice value: `data` is the visible `len(h)`
bytes, `spare` the backing-array bytes between `len(h)` and `cap(h)`.
Go slice expressions bounds-check against the capacity, so the spare
bytes are observable through `h[:4]`. -/
structure Hash where
  data : List UInt8
  spare : List UInt8
deriving DecidableEq, Repr

/-- `cap(h)`. -/
def Hash.cap (h : Hash) : Nat := h.data.length + h.spare.length

/-- One lowercase hex digit. -/
def hexDigit (n : Nat) : Char :=
  if n < 10 then Char.ofNat (48 + n) else Char.ofNat (87 + n)

/-- `hex.EncodeToString`: two lowercase hex digits per byte. -/
def hexEncodeToString (l : List UInt8) : String :=
  ⟨l.flatMap fun b => [hexDigit (b.toNat / 16), hexDigit (b.toNat % 16)]⟩

/-- The Go slice expression `h[lo:hi]` on a byte slice: panics (`none`)
iff `lo > hi` or `hi > cap(h)`; otherwise yields the backing bytes
`lo..hi` (beyond `len(h)` these come from the spare capacity). -/
def goSlice (h : Hash) (lo hi : Nat) : Option (List UInt8) :=
  if lo ≤ hi ∧ hi ≤ h.cap then some (((h.data ++ h.spare).drop lo).take (hi - lo)) else none

/-- `func (h Hash) String() string`: hex of `h[:]`, the visible bytes. -/
def Hash.String (h : Hash) : String :=
  hexEncodeToString h.data

/-- `func (h Hash) Short() Short`, i.e. `Short(h[:4])`: the conversion of
`h[:4]` to the four-byte array type `Short`.  The slice expression
bounds-checks against the capacity: it panics (`none`) iff `cap(h) < 4`,
and otherwise yields four bytes even when `len(h) < 4` (the tail coming
from the backing array). -/
def Hash.Short (h : Hash) : Option (List UInt8) :=
  goSlice h 0 4

/-- `func (h Short) String() string`. -/
def Short.String (s : List UInt8) : String :=
  hexEncodeToString s

/-! ### Helper notions for the theorems -/

/-- A heap with no meaningful cells, for values that never follow a
pointer. -/
def hEmpty : Heap := fun _ => .direct .vNil

/-- The scalar (tag-writing, fixed-layout) shapes: booleans, signed and
unsigned integers, strings. -/
def GoVal.isScalar : GoVal → Bool
  | .vBool _ _ => true
  | .vInt _ _ _ => true
  | .vUint _ _ _ => true
  | .vString _ _ => true
  | _ => false

/-- The kind parameter of an integer value stays in its `reflect` family:
2-6 for signed, 7-12 for unsigned (incl. `Uintptr`).  True of every value
`reflect` can produce. -/
def wfScalarKind : GoVal → Bool
  | .vInt k _ _ => 2 ≤ k && k ≤ 6
  | .vUint k _ _ => 7 ≤ k && k ≤ 12
  | .vFloat k _ _ => 13 ≤ k && k ≤ 14
  | .vComplex k _ _ _ => 15 ≤ k && k ≤ 16
  | _ => true

/-- The payload a scalar writes after its kind-tag byte. -/
def scalarPayload : GoVal → List UInt8
  | .vInt _ _ i => i64le i
  | .vUint _ _ n => u64le n
  | .vBool _ b => [if b then 1 else 0]
  | .vString _ s => strBytes s
  | _ => []

/-- A scalar encodes as its kind-tag byte followed by its payload,
independently of the heap. -/
lemma From_scalar (h : Heap) (v : GoVal) (hs : v.isScalar = true)
    (hw : wfScalarKind v = true) :
    From h v = .ok (UInt8.ofNat v.kind :: scalarPayload v) := by
  cases v with
  | vBool ty b => rfl
  | vString ty s => rfl
  | vInt k ty val =>
    simp only [wfScalarKind, Bool.and_eq_true, decide_eq_true_eq] at hw
    obtain ⟨h2, h6⟩ := hw
    interval_cases k <;> rfl
  | vUint k ty val =>
    simp only [wfScalarKind, Bool.and_eq_true, decide_eq_true_eq] at hw
    obtain ⟨h2, h6⟩ := hw
    interval_cases k <;> rfl
  | _ => simp [GoVal.isScalar] at hs

/-- `UInt8.ofNat` is injective below 256. -/
lemma uint8_ofNat_ne {a b : Nat} (ha : a < 256) (hb : b < 256) (hne : a ≠ b) :
    UInt8.ofNat a ≠ UInt8.ofNat b := by
  intro hc
  apply hne
  have h2 := congrArg UInt8.toNat hc
  have h3 : a % 256 = b % 256 := h2
  rwa [Nat.mod_eq_of_lt ha, Nat.mod_eq_of_lt hb] at h3

/-- Scalar kinds stay at most 25. -/
lemma kind_lt_256 (v : GoVal) (hw : wfScalarKind v = true) : v.kind < 256 := by
  cases v <;> simp_all [GoVal.kind, wfScalarKind] <;> omega

/-- A heap whose single relevant cell holds a nil `*int`, i.e. the pointee
of a `**int` value. -/
def hNilPtr : Heap := fun _ => .direct (.vPtr ⟨"int", false⟩ none)

/-- On a non-pointer value the dereference loop exits immediately. -/
lemma deref_nonptr (h : Heap) (o : String) (v : GoVal) (rt : Option RType) (gas : Nat)
    (hv : ∀ e a, v ≠ .vPtr e a) (hg : gas ≠ 0) :
    deref h o v rt gas = .ok (some v, rt) := by
  match gas, hg with
  | gas + 1, _ =>
    cases v <;> simp [deref]
    case vPtr e a => exact absurd rfl (hv e a)

/-! ### C1 -/

/-- C1 counterexample: a defined string type (`type MyString string`) and
plain `string` have different static types but identical encodings, because
the string case writes only the kind tag and the raw bytes — so "values
differing in static type produce different digests" fails, as does
"different concrete type within the same Kind are never equal". -/
theorem string_alias_collision_cex :
    From hEmpty (.vString "main.MyString" "a") = From hEmpty (.vString "string" "a") ∧
    (GoVal.vString "main.MyString" "a").tyName ≠ (GoVal.vString "string" "a").tyName := by
  constructor
  · decide
  · decide

/-- C1 amended: structurally and type-identical values encode identically
(the encoder is a pure function of the value), and two scalar values that
resolve to different Kinds always produce different streams — the leading
kind-tag byte separates them; full type discrimination inside one Kind,
however, fails (see the counterexample). -/
theorem scalar_kind_tag_discriminates (h1 h2 : Heap) (v1 v2 : GoVal)
    (hs1 : v1.isScalar = true) (hs2 : v2.isScalar = true)
    (hw1 : wfScalarKind v1 = true) (hw2 : wfScalarKind v2 = true)
    (hk : v1.kind ≠ v2.kind) :
    From h1 v1 ≠ From h2 v2 := by
  rw [From_scalar h1 v1 hs1 hw1, From_scalar h2 v2 hs2 hw2]
  intro hc
  have hl := Except.ok.inj hc
  have hh : UInt8.ofNat v1.kind = UInt8.ofNat v2.kind := (List.cons.injEq _ _ _ _ ▸ hl).1
  exact uint8_ofNat_ne (kind_lt_256 v1 hw1) (kind_lt_256 v2 hw2) hk hh

/-- Witness for C1's amended theorem: `int 0` and `bool false` get
different digests. -/
theorem scalar_kind_tag_discriminates_witness :
    From hEmpty (.vInt 2 "int" 0) ≠ From hEmpty (.vBool "bool" false) :=
  scalar_kind_tag_discriminates hEmpty hEmpty (.vInt 2 "int" 0) (.vBool "bool" false)
    (by decide) (by decide) (by decide) (by decide) (by decide)

/-! ### C3 -/

/-- C3: the `walkObject` switch has no case for funcs, channels or a bare
non-concrete nil, so it falls through to `return nil` — `From` returns a
digest (of an empty stream) with no error for all three, silently ignoring
them instead of failing with an unsupported-type error.  All three also
collide with each other. -/
theorem unsupported_values_hash_ok :
    From hEmpty (.vFunc "func()") = .ok [] ∧
    From hEmpty (.vChan "chan int") = .ok [] ∧
    From hEmpty .vNil = .ok [] := by
  refine ⟨by decide, by decide, by decide⟩

/-! ### C8 -/

/-- C8 counterexample: a nil `*int` writes the pointer type's own string
`"*int"`, not the pointee type's `"int"`; a dereferenced nil of the same
static type (a `**int` whose target is a nil `*int`) writes `"int"` — so
the two encode differently, contradicting "a nil reference and a
dereferenced nil of the same static type encode identically".  Moreover
nil maps (and slices) write nothing at all, so nil references of different
static map types encode identically, contradicting the per-type
discrimination claimed for every reference-like kind. -/
theorem nil_reference_cex :
    From hNilPtr (.vPtr ⟨"int", false⟩ none) = .ok (strBytes "*int") ∧
    From hNilPtr (.vPtr ⟨"*int", false⟩ (some 0)) = .ok (strBytes "int") ∧
    strBytes "*int" ≠ strBytes "int" ∧
    From hEmpty (.vMap "map[int]string" none) = .ok [] ∧
    From hEmpty (.vMap "map[string]string" none) = .ok [] := by
  refine ⟨by decide, by decide, by decide, by decide, by decide⟩

/-- C8 amended: a nil reference is never marked visited and writes no
identity; a nil pointer writes its own type string (hence nil pointers of
different pointee types differ), while nil maps and slices write nothing
(their static types are not discriminated); a dereferenced nil writes the
declared pointee type's name, so it differs from the nil pointer itself. -/
theorem nil_reference_encoding :
    (∀ (h : Heap) (fuel d : Nat) (st : St) (t : RType), d ≤ 100 →
      walkObject h (fuel + 1) (.vPtr t none) d st =
        .ok (wr st (strBytes ("*" ++ t.name)))) ∧
    (∀ (h : Heap) (fuel d : Nat) (st : St) (ty : String), d ≤ 100 →
      walkObject h (fuel + 1) (.vMap ty none) d st = .ok st) ∧
    (∀ (h : Heap) (fuel d : Nat) (st : St) (ty : String), d ≤ 100 →
      walkObject h (fuel + 1) (.vSlice ty none) d st = .ok st) ∧
    From hEmpty (.vPtr ⟨"int", false⟩ none) ≠ From hEmpty (.vPtr ⟨"string", false⟩ none) := by
  refine ⟨?_, ?_, ?_, by decide⟩ <;>
    (intro h fuel d st x hd;
     simp [walkObject, entryGuard, GoVal.kind, GoVal.isNilRef, GoVal.tyName,
       Nat.not_lt.mpr hd, Nat.not_lt_of_le hd])

/-- Witness for C8's amended theorem at concrete inputs. -/
theorem nil_reference_encoding_witness :
    walkObject hEmpty (101 + 1) (.vPtr ⟨"int", false⟩ none) 0 ⟨[], []⟩ =
      .ok (wr ⟨[], []⟩ (strBytes "*int")) ∧
    walkObject hEmpty (101 + 1) (.vMap "map[int]string" none) 0 ⟨[], []⟩ = .ok ⟨[], []⟩ :=
  ⟨nil_reference_encoding.1 hEmpty 101 0 ⟨[], []⟩ ⟨"int", false⟩ (by decide),
   nil_reference_encoding.2.1 hEmpty 101 0 ⟨[], []⟩ "map[int]string" (by decide)⟩

/-! ### C9 -/

/-- C9 counterexample: an empty byte slice writes the bytes of the
collection's own type string `"[]uint8"`, not the element type's name
`"uint8"`; an empty `map[int]string` writes `"map[int]string"`, not the
key/value names. -/
theorem empty_collection_cex :
    From hEmpty (.vSlice "[]uint8" (some (1, []))) = .ok (strBytes "[]uint8") ∧
    strBytes "[]uint8" ≠ strBytes "uint8" ∧
    From hEmpty (.vMap "map[int]string" (some (1, []))) = .ok (strBytes "map[int]string") ∧
    strBytes "map[int]string" ≠ strBytes ("int" ++ "string") := by
  refine ⟨by decide, by decide, by decide, by decide⟩

/-- C9 amended: an empty sequence or mapping writes its own full type
string and nothing else (which embeds the element/key/value types), so two
empty collections of different element or key types still always encode
differently. -/
theorem empty_collection_encoding :
    (∀ (h : Heap) (fuel d : Nat) (st : St) (ty : String) (i : Nat),
      d ≤ 100 → i ∉ st.vis →
      walkObject h (fuel + 1) (.vSlice ty (some (i, []))) d st =
        .ok (wr ⟨st.out, i :: st.vis⟩ (strBytes ty))) ∧
    (∀ (h : Heap) (fuel d : Nat) (st : St) (ty : String) (i : Nat),
      d ≤ 100 → i ∉ st.vis →
      walkObject h (fuel + 1) (.vMap ty (some (i, []))) d st =
        .ok (wr ⟨st.out, i :: st.vis⟩ (strBytes ty))) ∧
    (∀ (h : Heap) (fuel d : Nat) (st : St) (ty : String), d ≤ 100 →
      walkObject h (fuel + 1) (.vArray ty []) d st = .ok (wr st (strBytes ty))) ∧
    From hEmpty (.vSlice "[]uint8" (some (1, []))) ≠
      From hEmpty (.vSlice "[]string" (some (1, []))) ∧
    From hEmpty (.vMap "map[int]string" (some (1, []))) ≠
      From hEmpty (.vMap "map[string]string" (some (1, []))) := by
  refine ⟨?_, ?_, ?_, by decide, by decide⟩
  · intro h fuel d st ty i hd hi
    have hder := deref_nonptr h ty (.vSlice ty (some (i, []))) none 100
      (by intro e a hc; cases hc) (by decide)
    simp [walkObject, resolvedStep, entryGuard, GoVal.kind, GoVal.isNilRef, GoVal.refId,
      Nat.not_lt.mpr hd, hi, hder, GoVal.tyName]
  · intro h fuel d st ty i hd hi
    have hder := deref_nonptr h ty (.vMap ty (some (i, []))) none 100
      (by intro e a hc; cases hc) (by decide)
    simp [walkObject, resolvedStep, entryGuard, GoVal.kind, GoVal.isNilRef, GoVal.refId,
      Nat.not_lt.mpr hd, hi, hder, GoVal.tyName]
  · intro h fuel d st ty hd
    have hder := deref_nonptr h ty (.vArray ty []) none 100
      (by intro e a hc; cases hc) (by decide)
    simp [walkObject, resolvedStep, entryGuard, GoVal.kind, GoVal.isNilRef, Nat.not_lt.mpr hd, hder,
      GoVal.tyName]

/-- Witness for C9's amended theorem at concrete inputs. -/
theorem empty_collection_encoding_witness :
    walkObject hEmpty (101 + 1) (.vSlice "[]uint8" (some (1, []))) 0 ⟨[], []⟩ =
      .ok (wr ⟨[], [1]⟩ (strBytes "[]uint8")) :=
  empty_collection_encoding.1 hEmpty 101 0 ⟨[], []⟩ "[]uint8" 1 (by decide) (by decide)

/-! ### C10 -/

/-- C10 counterexample: `Short()` does NOT panic on every hash shorter
than four bytes.  `h[:4]` bounds-checks against the capacity, so a
two-byte digest with spare capacity (exactly what an `append`-grown sink
like the repo's `testHasher` returns: two bytes appended into a zeroed
cap-8 block) returns `[b0, b1, 0, 0]` without panicking.  The panic
happens only when `cap(h) < 4`. -/
theorem hash_short_cap_cex :
    Hash.Short ⟨[17, 34], [0, 0, 0, 0, 0, 0]⟩ = some [17, 34, 0, 0] ∧
    (Hash.mk [17, 34] [0, 0, 0, 0, 0, 0]).data.length = 2 ∧
    Hash.Short ⟨[17, 34], []⟩ = none := by
  refine ⟨by decide, by decide, by decide⟩

/-- C10 amended: `h.Short()` returns exactly the first four visible bytes
whenever `len(h) ≥ 4` (with `Short.String` their hex rendering); in
general it succeeds iff `cap(h) ≥ 4`, returning the first four backing
bytes (which extend past `len(h)` when the digest is shorter), and panics
— modelled as `none` — exactly when `cap(h) < 4`. -/
theorem hash_short_first_four :
    (∀ h : Hash, 4 ≤ h.data.length →
      Hash.Short h = some (h.data.take 4) ∧
      (Hash.Short h).map Short.String = some (hexEncodeToString (h.data.take 4))) ∧
    (∀ h : Hash, 4 ≤ h.cap → Hash.Short h = some ((h.data ++ h.spare).take 4)) ∧
    (∀ h : Hash, h.cap < 4 → Hash.Short h = none) ∧
    Hash.Short ⟨[], []⟩ = none := by
  refine ⟨?_, ?_, ?_, by decide⟩
  · intro h hl
    have hc : 4 ≤ h.cap := by
      unfold Hash.cap
      omega
    have hs : Hash.Short h = some (h.data.take 4) := by
      simp only [Hash.Short, goSlice, List.drop_zero, Nat.sub_zero,
        List.take_append_of_le_length hl]
      rw [if_pos (And.intro (by omega) hc)]
    exact ⟨hs, by rw [hs]; rfl⟩
  · intro h hc
    simp [Hash.Short, goSlice, hc]
  · intro h hc
    simp [Hash.Short, goSlice]
    omega

/-- Witness for C10's amended theorem at concrete hashes. -/
theorem hash_short_first_four_witness :
    Hash.Short ⟨[17, 34, 51, 68, 85], []⟩ = some [17, 34, 51, 68] ∧
    Hash.Short ⟨[17, 34], [0, 0]⟩ = some [17, 34, 0, 0] ∧
    Hash.Short ⟨[17, 34], []⟩ = none := by
  refine ⟨?_, ?_, ?_⟩
  · have := hash_short_first_four.1 ⟨[17, 34, 51, 68, 85], []⟩ (by decide)
    simpa using this.1
  · have := hash_short_first_four.2.1 ⟨[17, 34], [0, 0]⟩ (by decide)
    simpa using this
  · exact hash_short_first_four.2.2.1 ⟨[17, 34], []⟩ (by decide)

/-! ### Fuel never runs out: the recursion depth of `walkObject` is bounded
by the depth counter, for every input. -/

/-- The dereference loop cannot produce the fuel artifact. -/
lemma deref_ne_outOfFuel : ∀ (gas : Nat) (h : Heap) (o : String) (v : GoVal) (rt : Option RType),
    deref h o v rt gas ≠ .error .outOfFuel := by
  intro gas
  induction gas with
  | zero => intro h o v rt; simp [deref]
  | succ g ih =>
    intro h o v rt
    match v with
    | .vBool _ _ | .vInt _ _ _ | .vUint _ _ _ | .vFloat _ _ _ | .vComplex _ _ _ _
    | .vString _ _ | .vArray _ _ | .vChan _
    | .vFunc _ | .vMap _ _ | .vSlice _ _ | .vStruct _ _ _ | .vNil => simp [deref]
    | .vPtr e none =>
      simp only [deref]
      split <;> simp
    | .vPtr e (some a) =>
      simp only [deref]
      cases hca : h a with
      | direct w => exact ih h o w (some e)
      | ifaceBox o2 =>
        cases o2 with
        | none =>
          show ¬(if g = 0 then (.error (.ptrOverflow o) : Except Err (Option GoVal × Option RType))
            else .ok (none, some e)) = .error .outOfFuel
          split <;> simp
        | some gv => exact ih h o gv (some ⟨gv.tyName, false⟩)

/-- If the step function cannot produce the fuel artifact, neither can the
element loop. -/
lemma walkSeq_ne_outOfFuel (f : GoVal → Nat → St → Except Err St) (d : Nat)
    (hf : ∀ v st, f v d st ≠ .error .outOfFuel) :
    ∀ (l : List GoVal) (st : St), walkSeq f d l st ≠ .error .outOfFuel := by
  intro l
  induction l with
  | nil => intro st; simp [walkSeq]
  | cons v rest ih =>
    intro st
    cases hv : f v d st with
    | error e =>
      simp only [walkSeq, hv]
      intro hc
      injection hc with he
      exact hf v st (by rw [hv, he])
    | ok st1 =>
      simp only [walkSeq, hv]
      exact ih st1

/-- Same for the key/value loop. -/
lemma walkPairs_ne_outOfFuel (f : GoVal → Nat → St → Except Err St) (d : Nat)
    (hf : ∀ v st, f v d st ≠ .error .outOfFuel) :
    ∀ (l : List (GoVal × GoVal)) (st : St), walkPairs f d l st ≠ .error .outOfFuel := by
  intro l
  induction l with
  | nil => intro st; simp [walkPairs]
  | cons p rest ih =>
    intro st
    cases hv : f p.1 d st with
    | error e =>
      simp only [walkPairs, hv]
      intro hc
      injection hc with he
      exact hf p.1 st (by rw [hv, he])
    | ok st1 =>
      cases hv2 : f p.2 d st1 with
      | error e =>
        simp only [walkPairs, hv, hv2]
        intro hc
        injection hc with he
        exact hf p.2 st1 (by rw [hv2, he])
      | ok st2 =>
        simp only [walkPairs, hv, hv2]
        exact ih st2

/-- An early return of the cycle guard is always a success. -/
lemma entryGuard_inl_ok (v : GoVal) (st : St) (r : Except Err St)
    (hg : entryGuard v st = .inl r) : ∃ s, r = .ok s := by
  unfold entryGuard at hg
  split at hg
  · split at hg
    · cases hg
      split
      · exact ⟨_, rfl⟩
      · exact ⟨_, rfl⟩
    · split at hg
      · split at hg
        · cases hg; exact ⟨_, rfl⟩
        · cases hg
      · cases hg
  · cases hg

/-- As long as the fuel exceeds the remaining depth budget (`101 - depth`),
`walkObject` never exhausts it: every call chain is stopped by the depth
check first.  With the `From` configuration (fuel 102, depth 0) this bounds
the recursion depth of every hashing call. -/
lemma walkObject_ne_outOfFuel :
    ∀ (fuel : Nat) (h : Heap) (v : GoVal) (depth : Nat) (st : St),
      101 < fuel + depth → 0 < fuel →
      walkObject h fuel v depth st ≠ .error .outOfFuel := by
  intro fuel
  induction fuel with
  | zero => intro h v depth st h1 h2; omega
  | succ f ih =>
    intro h v depth st h1 _
    by_cases hd : depth > 100
    · simp [walkObject, hd]
    · have hch : ∀ v' st', walkObject h f v' (depth + 1) st' ≠ .error .outOfFuel := by
        intro v' st'
        exact ih h v' (depth + 1) st' (by omega) (by omega)
      cases hg : entryGuard v st with
      | inl r =>
        obtain ⟨s, hs⟩ := entryGuard_inl_ok v st r hg
        subst hs
        simp [walkObject, hd, hg]
      | inr st1 =>
        cases hder : deref h v.tyName v none 100 with
        | error e =>
          simp only [walkObject, hd, if_false, hg, hder]
          intro hc
          injection hc with he
          exact deref_ne_outOfFuel 100 h v.tyName v none (by rw [hder, he])
        | ok res =>
          obtain ⟨ov, rt⟩ := res
          cases ov with
          | none =>
            cases rt with
            | some r =>
              simp only [walkObject, resolvedStep, hd, if_false, hg, hder]
              split <;> simp
            | none => simp [walkObject, resolvedStep, hd, hg, hder]
          | some w =>
            cases w with
            | vArray ty es =>
              simp only [walkObject, resolvedStep, hd, if_false, hg, hder]
              split
              · simp
              · exact walkSeq_ne_outOfFuel _ _ (fun v' st' => hch v' st') es _
            | vSlice ty ref =>
              simp only [walkObject, resolvedStep, hd, if_false, hg, hder]
              split
              · simp
              · exact walkSeq_ne_outOfFuel _ _ (fun v' st' => hch v' st') _ _
            | vMap ty ref =>
              simp only [walkObject, resolvedStep, hd, if_false, hg, hder]
              split
              · simp
              · exact walkPairs_ne_outOfFuel _ _ (fun v' st' => hch v' st') _ _
            | vStruct ty pkg fs =>
              simp only [walkObject, resolvedStep, hd, if_false, hg, hder]
              split
              · simp
              · exact walkSeq_ne_outOfFuel _ _ (fun v' st' => hch v' st') _ _
            | _ => simp [walkObject, resolvedStep, hd, hg, hder]

/-! ### Chains and nests, for the depth-guard claims -/

/-- The named recursive pointer type `type P *P` of package main. -/
def PT : RType := ⟨"main.P", false⟩

/-- A heap holding a linear pointer chain: cell `i` points at cell `i+1`
while `i + 1 < n`, and every later cell holds a nil pointer.  Starting
from a pointer to cell 0 this is a chain of `n + 1` consecutive
dereferences before an invalid value is reached. -/
def chainHeap (n : Nat) : Heap := fun i =>
  if i + 1 < n then .direct (.vPtr PT (some (i + 1))) else .direct (.vPtr PT none)

/-- Dereferencing into the chain from cell `i` fails exactly when the gas
cannot cover the remaining pointers. -/
lemma deref_chain (n : Nat) : ∀ (g i : Nat) (rt : Option RType) (o : String), i < n →
    deref (chainHeap n) o (.vPtr PT (some i)) rt g =
      if g ≤ n - i + 1 then .error (.ptrOverflow o) else .ok (none, some PT) := by
  intro g
  induction g with
  | zero =>
    intro i rt o hi
    rw [if_pos (by omega)]
    simp [deref]
  | succ g ih =>
    intro i rt o hi
    simp only [deref]
    by_cases hlt : i + 1 < n
    · have hc : chainHeap n i = .direct (.vPtr PT (some (i + 1))) := by
        simp [chainHeap, hlt]
      rw [hc]
      simp only [ih (i + 1) (some PT) o (by omega)]
      by_cases hgg : g + 1 ≤ n - i + 1
      · rw [if_pos (by omega), if_pos hgg]
      · rw [if_neg (by omega), if_neg hgg]
    · have hc : chainHeap n i = .direct (.vPtr PT none) := by
        simp [chainHeap, hlt]
      rw [hc]
      have hi2 : n - i + 1 = 2 := by omega
      match g with
      | 0 => rw [if_pos (by omega)]; simp [deref]
      | g' + 1 =>
        simp only [deref]
        rw [hi2]
        by_cases hg0 : g' = 0
        · subst hg0
          rw [if_pos rfl, if_pos (by omega)]
        · rw [if_neg hg0, if_neg (by omega)]

/-- A nonempty-array nest of the given height over a final int. -/
def nestVal : Nat → GoVal
  | 0 => .vInt 2 "int" 7
  | k + 1 => .vArray "main.A" [nestVal k]

/-- Walking a nest deep enough to push the depth counter past 100 fails
with the depth-exceeded error. -/
lemma nest_depth_err : ∀ (k fuel d : Nat) (st : St), 101 < fuel + d → d ≤ 101 → 101 ≤ d + k →
    ∃ t, walkObject hEmpty fuel (nestVal k) d st = .error (.depthExceeded t) := by
  intro k
  induction k with
  | zero =>
    intro fuel d st h1 h2 h3
    cases fuel with
    | zero => exact absurd h1 (by omega)
    | succ fuel =>
      refine ⟨"int", ?_⟩
      have hd : d > 100 := by omega
      simp [walkObject, hd, nestVal, GoVal.tyName]
  | succ k ih =>
    intro fuel d st h1 h2 h3
    cases fuel with
    | zero => exact absurd h1 (by omega)
    | succ fuel =>
      by_cases hd : d > 100
      · exact ⟨"main.A", by simp [walkObject, hd, nestVal, GoVal.tyName]⟩
      · have hder := deref_nonptr hEmpty "main.A"
          (.vArray "main.A" [nestVal k]) none 100 (by intro e a hc; cases hc) (by decide)
        obtain ⟨t, ht⟩ := ih fuel (d + 1) (wr st [17]) (by omega) (by omega) (by omega)
        refine ⟨t, ?_⟩
        simp [nestVal, walkObject, resolvedStep, hd, entryGuard, GoVal.kind, GoVal.isNilRef,
          hder, walkSeq, ht, GoVal.tyName]

/-- If the guard marks and the dereference loop fails, the call fails with
the loop's error. -/
lemma walkObject_guard_inr_deref_error (h : Heap) (fuel d : Nat) (st0 st1 : St) (v : GoVal)
    (e : Err) (hd : d ≤ 100) (hg : entryGuard v st0 = .inr st1)
    (hder : deref h v.tyName v none 100 = .error e) :
    walkObject h (fuel + 1) v d st0 = .error e := by
  simp [walkObject, Nat.not_lt.mpr hd, hg, hder]

/-- An already-visited identity makes `walkObject` a no-op success. -/
lemma walkObject_visited_skip (h : Heap) (fuel : Nat) (v : GoVal) (d : Nat) (st : St) (i : Nat)
    (hd : d ≤ 100) (hnil : v.isNilRef = false) (hrid : v.refId = some i)
    (hmem : i ∈ st.vis) :
    walkObject h (fuel + 1) v d st = .ok st := by
  match v, hrid with
  | .vPtr e (some a), hrid =>
    have ha : a = i := by simpa [GoVal.refId] using hrid
    subst ha
    simp [walkObject, entryGuard, GoVal.kind, GoVal.isNilRef, GoVal.refId,
      Nat.not_lt.mpr hd, hmem]
  | .vMap ty (some r), hrid =>
    have ha : r.1 = i := by simpa [GoVal.refId] using hrid
    simp [walkObject, entryGuard, GoVal.kind, GoVal.isNilRef, GoVal.refId,
      Nat.not_lt.mpr hd, ha, hmem]
  | .vSlice ty (some r), hrid =>
    have ha : r.1 = i := by simpa [GoVal.refId] using hrid
    simp [walkObject, entryGuard, GoVal.kind, GoVal.isNilRef, GoVal.refId,
      Nat.not_lt.mpr hd, ha, hmem]

/-- A heap holding one self-referential record: the node's field points
back at the node itself, at address 0. -/
def hCycA : Heap := fun _ =>
  .direct (.vStruct "main.Node" "main" [(true, .vPtr ⟨"main.Node", false⟩ (some 0))])

/-- The same record rebuilt at a different address (5). -/
def hCycB : Heap := fun _ =>
  .direct (.vStruct "main.Node" "main" [(true, .vPtr ⟨"main.Node", false⟩ (some 5))])

/-! ### C4 -/

set_option maxRecDepth 4000 in
/-- C4 counterexample: the claim's "returns a digest (not an error)" does
not hold of every value graph — a 102-deep nest of arrays makes `From`
fail with the depth-exceeded error (consistently with C7/§4.1; the claim
overreaches only in its error-freeness clause). -/
theorem every_graph_digest_cex :
    From hEmpty (nestVal 102) = .error (.depthExceeded "main.A") := by
  decide

/-- C4 amended: hashing always terminates within recursion depth 102 for
every input (the fuel artifact is unreachable whenever the fuel exceeds
the remaining depth budget, so `From`'s fuel of 102 never runs out); an
already-visited identity is encoded as a no-op, and identities are marked
before recursion, so a record whose field references itself produces a
digest — not an error — and the same digest when the graph is rebuilt
fresh at different addresses. -/
theorem cycle_termination :
    (∀ (fuel : Nat) (h : Heap) (v : GoVal) (depth : Nat) (st : St),
      101 < fuel + depth → 0 < fuel →
      walkObject h fuel v depth st ≠ .error .outOfFuel) ∧
    (∀ (h : Heap) (fuel : Nat) (v : GoVal) (d : Nat) (st : St) (i : Nat),
      d ≤ 100 → v.isNilRef = false → v.refId = some i → i ∈ st.vis →
      walkObject h (fuel + 1) v d st = .ok st) ∧
    (From hCycA (.vPtr ⟨"main.Node", false⟩ (some 0)) =
      From hCycB (.vPtr ⟨"main.Node", false⟩ (some 5)) ∧
     (From hCycA (.vPtr ⟨"main.Node", false⟩ (some 0))).isOk = true) := by
  refine ⟨walkObject_ne_outOfFuel, ?_, by decide, by decide⟩
  intro h fuel v d st i hd hnil hrid hmem
  exact walkObject_visited_skip h fuel v d st i hd hnil hrid hmem

/-- Witness for C4's amended theorem at concrete inputs. -/
theorem cycle_termination_witness :
    walkObject hEmpty 102 (.vInt 2 "int" 7) 0 ⟨[], []⟩ ≠ .error .outOfFuel ∧
    walkObject hEmpty (101 + 1) (.vPtr ⟨"int", false⟩ (some 3)) 0 ⟨[], [3]⟩ =
      .ok ⟨[], [3]⟩ :=
  ⟨cycle_termination.1 102 hEmpty (.vInt 2 "int" 7) 0 ⟨[], []⟩ (by decide) (by decide),
   cycle_termination.2.1 hEmpty 101 (.vPtr ⟨"int", false⟩ (some 3)) 0 ⟨[], [3]⟩ 3
     (by decide) (by decide) (by decide) (by decide)⟩

/-! ### C7 -/

/-- C7: a consecutive pointer chain longer than the limit fails with the
too-many-pointers depth error, naming the input's type; recursion nesting
past 100 fails with the depth-exceeded error, naming the offending type;
and no input can exhaust the (explicitly modelled) call-stack budget. -/
theorem depth_guard_errors :
    (∀ n : Nat, 100 ≤ n →
      From (chainHeap n) (.vPtr PT (some 0)) = .error (.ptrOverflow "*main.P")) ∧
    (∀ k : Nat, 101 ≤ k →
      ∃ t, From hEmpty (nestVal k) = .error (.depthExceeded t)) ∧
    (∀ (h : Heap) (v : GoVal), From h v ≠ .error .outOfFuel) := by
  refine ⟨?_, ?_, ?_⟩
  · intro n hn
    have hg : entryGuard (.vPtr PT (some 0)) ⟨[], []⟩ = .inr ⟨[], [0]⟩ := by
      simp [entryGuard, GoVal.kind, GoVal.isNilRef, GoVal.refId]
    have hder := deref_chain n 100 0 none (GoVal.vPtr PT (some 0)).tyName (by omega)
    rw [if_pos (by omega)] at hder
    have hw := walkObject_guard_inr_deref_error (chainHeap n) 101 0 ⟨[], []⟩ ⟨[], [0]⟩
      (.vPtr PT (some 0)) _ (by omega) hg hder
    unfold From
    rw [show (102 : Nat) = 101 + 1 from rfl, hw]
    rfl
  · intro k hk
    obtain ⟨t, ht⟩ := nest_depth_err k 102 0 ⟨[], []⟩ (by omega) (by omega) (by omega)
    refine ⟨t, ?_⟩
    unfold From
    rw [ht]
  · intro h v hc
    have hne := walkObject_ne_outOfFuel 102 h v 0 ⟨[], []⟩ (by omega) (by omega)
    unfold From at hc
    cases hw : walkObject h 102 v 0 ⟨[], []⟩ with
    | error e =>
      rw [hw] at hc
      injection hc with he
      exact hne (by rw [hw, he])
    | ok st =>
      rw [hw] at hc
      cases hc

/-- Witness for C7's theorem: a 150-pointer chain and a 150-deep nest. -/
theorem depth_guard_errors_witness :
    From (chainHeap 150) (.vPtr PT (some 0)) = .error (.ptrOverflow "*main.P") ∧
    (∃ t, From hEmpty (nestVal 150) = .error (.depthExceeded t)) :=
  ⟨depth_guard_errors.1 150 (by decide), depth_guard_errors.2.1 150 (by decide)⟩

/-! ### Order theory of the canonical key comparator -/

lemma charListLt_irrefl : ∀ l, charListLt l l = false := by
  intro l
  induction l with
  | nil => rfl
  | cons c rest ih => simp [charListLt, ih]

lemma charListLt_asymm : ∀ a b, charListLt a b = true → charListLt b a = false := by
  intro a
  induction a with
  | nil =>
    intro b hab
    cases b with
    | nil => simp [charListLt] at hab
    | cons y ys => simp [charListLt]
  | cons x xs ih =>
    intro b hab
    cases b with
    | nil => simp [charListLt] at hab
    | cons y ys =>
      simp only [charListLt] at hab ⊢
      by_cases h1 : x.toNat < y.toNat
      · rw [if_neg (by omega), if_pos h1]
      · by_cases h2 : y.toNat < x.toNat
        · rw [if_neg h1, if_pos h2] at hab
          cases hab
        · rw [if_neg h1, if_neg h2] at hab
          rw [if_neg h2, if_neg h1]
          exact ih ys hab

lemma charListLt_conn : ∀ a b, charListLt a b = false → charListLt b a = false → a = b := by
  intro a
  induction a with
  | nil =>
    intro b hab hba
    cases b with
    | nil => rfl
    | cons y ys => simp [charListLt] at hab
  | cons x xs ih =>
    intro b hab hba
    cases b with
    | nil => simp [charListLt] at hba
    | cons y ys =>
      simp only [charListLt] at hab hba
      by_cases h1 : x.toNat < y.toNat
      · rw [if_pos h1] at hab; cases hab
      · by_cases h2 : y.toNat < x.toNat
        · rw [if_pos h2] at hba; cases hba
        · rw [if_neg h1, if_neg h2] at hab
          rw [if_neg h2, if_neg h1] at hba
          have a1 : ¬ x.val.toNat < y.val.toNat := h1
          have a2 : ¬ y.val.toNat < x.val.toNat := h2
          have hv : x.val.toNat = y.val.toNat := by omega
          have hxy : x = y := Char.eq_of_val_eq (UInt32.ext hv)
          rw [hxy, ih ys hab hba]

lemma charListLt_trans :
    ∀ a b c, charListLt a b = true → charListLt b c = true → charListLt a c = true := by
  intro a
  induction a with
  | nil =>
    intro b c hab hbc
    cases c with
    | nil =>
      cases b with
      | nil => exact hab
      | cons y ys => simp [charListLt] at hbc
    | cons z zs => simp [charListLt]
  | cons x xs ih =>
    intro b c hab hbc
    cases b with
    | nil => simp [charListLt] at hab
    | cons y ys =>
      cases c with
      | nil => simp [charListLt] at hbc
      | cons z zs =>
        simp only [charListLt] at hab hbc ⊢
        by_cases h1 : x.toNat < y.toNat
        · by_cases h2 : y.toNat < z.toNat
          · rw [if_pos (by omega)]
          · by_cases h3 : z.toNat < y.toNat
            · rw [if_neg h2, if_pos h3] at hbc; cases hbc
            · rw [if_pos (by omega)]
        · by_cases h1r : y.toNat < x.toNat
          · rw [if_neg h1, if_pos h1r] at hab; cases hab
          · rw [if_neg h1, if_neg h1r] at hab
            by_cases h2 : y.toNat < z.toNat
            · rw [if_pos (by omega)]
            · by_cases h3 : z.toNat < y.toNat
              · rw [if_neg h2, if_pos h3] at hbc; cases hbc
              · rw [if_neg h2, if_neg h3] at hbc
                rw [if_neg (by omega), if_neg (by omega)]
                exact ih ys zs hab hbc

lemma strLt_irrefl (s : String) : strLt s s = false := charListLt_irrefl s.data

lemma strLt_asymm {a b : String} (h : strLt a b = true) : strLt b a = false :=
  charListLt_asymm a.data b.data h

lemma strLt_conn {a b : String} (h1 : strLt a b = false) (h2 : strLt b a = false) : a = b :=
  String.ext (charListLt_conn a.data b.data h1 h2)

lemma strLt_trans {a b c : String} (h1 : strLt a b = true) (h2 : strLt b c = true) :
    strLt a c = true :=
  charListLt_trans a.data b.data c.data h1 h2

/-- `¬ b < a` composes: the non-strict order induced by `strLt` is
transitive. -/
lemma strLt_false_trans {a b c : String} (h1 : strLt b a = false) (h2 : strLt c b = false) :
    strLt c a = false := by
  by_cases hab : strLt a b
  · by_cases hca : strLt c a
    · have hcb := strLt_trans hca hab
      rw [hcb] at h2
      cases h2
    · simpa using hca
  · have hab2 : a = b := strLt_conn (by simpa using hab) h1
    subst hab2
    exact h2

lemma cmpStr_refl (s : String) : cmpStr s s = 0 := by simp [cmpStr, strLt_irrefl]

lemma cmpStr_sign (a b : String) : cmpStr b a = -cmpStr a b := by
  unfold cmpStr
  by_cases h1 : strLt a b
  · simp [h1, strLt_asymm h1]
  · by_cases h2 : strLt b a <;> simp [h1, h2]

lemma cmpStr_zero {a b : String} (h : cmpStr a b = 0) : a = b := by
  unfold cmpStr at h
  by_cases h1 : strLt a b
  · rw [if_pos h1] at h; cases h
  · by_cases h2 : strLt b a
    · rw [if_neg h1, if_pos h2] at h; cases h
    · exact strLt_conn (by simpa using h1) (by simpa using h2)

lemma cmpStr_nonpos {a b : String} : cmpStr a b ≤ 0 ↔ strLt b a = false := by
  unfold cmpStr
  by_cases h1 : strLt a b
  · simp [h1, strLt_asymm h1]
  · by_cases h2 : strLt b a <;> simp [h1, h2]

lemma cmpStr_le_trans {a b c : String} (h1 : cmpStr a b ≤ 0) (h2 : cmpStr b c ≤ 0) :
    cmpStr a c ≤ 0 :=
  cmpStr_nonpos.mpr
    (strLt_false_trans (cmpStr_nonpos.mp h1) (cmpStr_nonpos.mp h2))

lemma cmpInt_refl (x : Int) : cmpInt x x = 0 := by simp [cmpInt]

lemma cmpInt_sign (x y : Int) : cmpInt y x = -cmpInt x y := by
  unfold cmpInt
  rcases lt_trichotomy x y with h | h | h
  · simp [h, show ¬ y < x by omega]
  · subst h; simp
  · simp [h, show ¬ x < y by omega]

lemma cmpInt_zero {x y : Int} (h : cmpInt x y = 0) : x = y := by
  unfold cmpInt at h
  by_cases h1 : x < y
  · rw [if_pos h1] at h; cases h
  · by_cases h2 : y < x
    · rw [if_neg h1, if_pos h2] at h; cases h
    · omega

lemma cmpInt_nonpos {x y : Int} : cmpInt x y ≤ 0 ↔ ¬ y < x := by
  unfold cmpInt
  by_cases h1 : x < y
  · simp [h1, show ¬ y < x by omega]
  · by_cases h2 : y < x <;> simp [h1, h2]

lemma cmpInt_le_trans {x y z : Int} (h1 : cmpInt x y ≤ 0) (h2 : cmpInt y z ≤ 0) :
    cmpInt x z ≤ 0 := by
  rw [cmpInt_nonpos] at *
  omega

lemma cmpNat_sign (x y : Nat) : cmpNat y x = -cmpNat x y := by
  unfold cmpNat
  rcases lt_trichotomy x y with h | h | h
  · simp [h, show ¬ y < x by omega]
  · subst h; simp
  · simp [h, show ¬ x < y by omega]

lemma cmpBool_sign (x y : Bool) : cmpBool y x = -cmpBool x y := by
  cases x <;> cases y <;> decide

lemma cmpNat_eq_cmpInt (x y : Nat) : cmpNat x y = cmpInt x y := by
  unfold cmpNat cmpInt
  by_cases h1 : x < y
  · rw [if_pos h1, if_pos (by exact_mod_cast h1)]
  · by_cases h2 : y < x
    · rw [if_neg h1, if_pos h2, if_neg (by exact_mod_cast h1), if_pos (by exact_mod_cast h2)]
    · rw [if_neg h1, if_neg h2, if_neg (by exact_mod_cast h1), if_neg (by exact_mod_cast h2)]

lemma cmpBool_eq_cmpInt (x y : Bool) :
    cmpBool x y = cmpInt (if x then 1 else 0) (if y then 1 else 0) := by
  cases x <;> cases y <;> decide

lemma f64Lt_irrefl (a : Nat) : f64Lt a a = false := by
  unfold f64Lt
  by_cases h : f64IsNaN a
  · simp [h]
  · by_cases hs : a / 9223372036854775808 % 2 = 1
    · simp [h, hs]
    · simp [h, hs]

/-- On NaN-free patterns, the IEEE order is the signed-magnitude order. -/
lemma f64Lt_iff {a b : Nat} (hna : f64IsNaN a = false) (hnb : f64IsNaN b = false) :
    f64Lt a b = true ↔ f64ToLin a < f64ToLin b := by
  unfold f64Lt f64ToLin
  rw [hna, hnb]
  by_cases ha : a / 9223372036854775808 % 2 = 1 <;>
    by_cases hb : b / 9223372036854775808 % 2 = 1 <;>
    simp [ha, hb] <;> omega

lemma f64Lt_asymm {a b : Nat} (h : f64Lt a b = true) : f64Lt b a = false := by
  by_cases hna : f64IsNaN a
  · rw [show f64Lt a b = false by unfold f64Lt; simp [hna]] at h
    cases h
  · by_cases hnb : f64IsNaN b
    · rw [show f64Lt a b = false by unfold f64Lt; simp [hnb]] at h
      cases h
    · have h1 := (f64Lt_iff (by simpa using hna) (by simpa using hnb)).mp h
      rw [← Bool.not_eq_true, f64Lt_iff (by simpa using hnb) (by simpa using hna)]
      omega

lemma cmpFloat_refl (a : Nat) : cmpFloat a a = 0 := by
  simp [cmpFloat, f64Lt_irrefl]

lemma cmpFloat_sign (x y : Nat) : cmpFloat y x = -cmpFloat x y := by
  unfold cmpFloat
  by_cases h1 : f64Lt x y
  · have h2 := f64Lt_asymm h1
    simp [h1, h2]
  · by_cases h2 : f64Lt y x <;> simp [h1, h2]

/-- On NaN-free patterns, the Float comparison is the integer comparison
of the linearisations. -/
lemma cmpFloat_eq_cmpInt {a b : Nat} (hna : f64IsNaN a = false) (hnb : f64IsNaN b = false) :
    cmpFloat a b = cmpInt (f64ToLin a) (f64ToLin b) := by
  unfold cmpFloat cmpInt
  by_cases h1 : f64ToLin a < f64ToLin b
  · rw [if_pos ((f64Lt_iff hna hnb).mpr h1), if_pos h1]
  · rw [if_neg (by rw [f64Lt_iff hna hnb]; exact h1), if_neg h1]
    by_cases h2 : f64ToLin b < f64ToLin a
    · rw [if_pos ((f64Lt_iff hnb hna).mpr h2), if_pos h2]
    · rw [if_neg (by rw [f64Lt_iff hnb hna]; exact h2), if_neg h2]

/-- The string component the comparator orders same-typed keys by: the
value for strings, the rendering for fallback shapes, empty for numerics
and booleans (which order by `projInt` instead). -/
def projStr (v : GoVal) : String :=
  match v with
  | .vString _ s => s
  | .vInt _ _ _ => ""
  | .vUint _ _ _ => ""
  | .vFloat _ _ _ => ""
  | .vBool _ _ => ""
  | _ => render v

/-- The numeric component: the integer value, the unsigned value, the
float linearisation, or 0/1 for booleans. -/
def projInt (v : GoVal) : Int :=
  match v with
  | .vInt _ _ x => x
  | .vUint _ _ n => n
  | .vFloat _ _ bits => f64ToLin bits
  | .vBool _ b => if b then 1 else 0
  | _ => 0

/-- The comparison `compareMapKeys` performs on same-shaped keys, as a
lexicographic pair of the two projections. -/
def pairCmp (a b : GoVal) : Int :=
  if cmpStr (projStr a) (projStr b) = 0 then cmpInt (projInt a) (projInt b)
  else cmpStr (projStr a) (projStr b)

lemma pair_via_str (s t : String) :
    (if cmpStr s t = 0 then cmpInt 0 0 else cmpStr s t) = cmpStr s t := by
  by_cases hc : cmpStr s t = 0 <;> simp [hc, cmpInt_refl]

lemma pair_via_int (x y : Int) :
    (if cmpStr "" "" = 0 then cmpInt x y else cmpStr "" "") = cmpInt x y := by
  simp [cmpStr_refl]

/-- On keys of the same shape (true of same-typed `reflect` values), the
inner switch of `compareMapKeys` is the lexicographic projection
comparison. -/
lemma innerCmp_eq_pair (a b : GoVal) (h : a.ctorTag = b.ctorTag)
    (hna : a.noNaN = true) (hnb : b.noNaN = true) :
    innerCmp a b = pairCmp a b := by
  cases a <;> cases b <;>
    first
    | (simp only [GoVal.ctorTag] at h; omega)
    | (simp only [innerCmp, pairCmp, projStr, projInt]
       first
       | exact (pair_via_str _ _).symm
       | exact (pair_via_int _ _).symm
       | (rw [cmpNat_eq_cmpInt]; exact (pair_via_int _ _).symm)
       | (rw [cmpBool_eq_cmpInt]; exact (pair_via_int _ _).symm)
       | (simp only [GoVal.noNaN, Bool.not_eq_true'] at hna hnb
          rw [cmpFloat_eq_cmpInt hna hnb]
          exact (pair_via_int _ _).symm))

lemma innerCmp_sign (a b : GoVal) : innerCmp b a = -innerCmp a b := by
  cases a <;> cases b <;>
    first
    | exact cmpStr_sign _ _
    | exact cmpInt_sign _ _
    | exact cmpNat_sign _ _
    | exact cmpBool_sign _ _
    | exact cmpFloat_sign _ _

lemma innerCmp_refl (a : GoVal) : innerCmp a a = 0 := by
  cases a <;>
    first
    | exact cmpStr_refl _
    | exact cmpInt_refl _
    | exact cmpFloat_refl _
    | simp [innerCmp, cmpNat, cmpBool]

lemma pairCmp_refl (a : GoVal) : pairCmp a a = 0 := by
  simp [pairCmp, cmpStr_refl, cmpInt_refl]

lemma cmpStr_neg_of {a b : String} (hne : cmpStr a b ≠ 0) (hle : cmpStr a b ≤ 0) :
    strLt a b = true := by
  unfold cmpStr at hne hle
  by_cases hx : strLt a b
  · exact hx
  · by_cases hy : strLt b a
    · rw [if_neg hx, if_pos hy] at hle; omega
    · rw [if_neg hx, if_neg hy] at hne; exact absurd rfl hne

lemma cmpStr_of_lt {a b : String} (h : strLt a b = true) : cmpStr a b = -1 := by
  unfold cmpStr; rw [if_pos h]

lemma pairCmp_le_trans {a b c : GoVal} (h1 : pairCmp a b ≤ 0) (h2 : pairCmp b c ≤ 0) :
    pairCmp a c ≤ 0 := by
  unfold pairCmp at *
  by_cases z1 : cmpStr (projStr a) (projStr b) = 0
  · have e1 := cmpStr_zero z1
    rw [if_pos z1] at h1
    by_cases z2 : cmpStr (projStr b) (projStr c) = 0
    · have e2 := cmpStr_zero z2
      rw [if_pos z2] at h2
      rw [if_pos (by rw [e1, e2]; exact cmpStr_refl _)]
      exact cmpInt_le_trans h1 h2
    · rw [if_neg z2] at h2
      rw [e1, if_neg z2]
      exact h2
  · rw [if_neg z1] at h1
    have hlt1 : strLt (projStr a) (projStr b) = true := cmpStr_neg_of z1 h1
    by_cases z2 : cmpStr (projStr b) (projStr c) = 0
    · have e2 := cmpStr_zero z2
      have hlt2 : strLt (projStr a) (projStr c) = true := by rw [← e2]; exact hlt1
      rw [cmpStr_of_lt hlt2]
      norm_num
    · rw [if_neg z2] at h2
      have hlt2 : strLt (projStr b) (projStr c) = true := cmpStr_neg_of z2 h2
      rw [cmpStr_of_lt (strLt_trans hlt1 hlt2)]
      norm_num

/-- Two values are kind-coherent when an equal reported type string forces
an equal shape — true of every pair of real `reflect` values, where the
type determines the kind. -/
def kindCoherent (x y : GoVal) : Prop :=
  x.tyName = y.tyName → x.ctorTag = y.ctorTag

instance (x y : GoVal) : Decidable (kindCoherent x y) :=
  inferInstanceAs (Decidable (_ → _))

lemma compareMapKeys_refl (a : GoVal) : compareMapKeys a a = 0 := by
  simp [compareMapKeys, strLt_irrefl, innerCmp_refl]

lemma compareMapKeys_sign (a b : GoVal) : compareMapKeys b a = -compareMapKeys a b := by
  unfold compareMapKeys
  by_cases t1 : strLt a.tyName b.tyName
  · simp [t1, strLt_asymm t1]
  · by_cases t2 : strLt b.tyName a.tyName
    · simp [t1, t2]
    · rw [if_neg t2, if_neg t1, if_neg t1, if_neg t2]
      exact innerCmp_sign a b

lemma compareMapKeys_zero_ty {a b : GoVal} (h : compareMapKeys a b = 0) :
    a.tyName = b.tyName := by
  unfold compareMapKeys at h
  by_cases t1 : strLt a.tyName b.tyName
  · rw [if_pos t1] at h; cases h
  · by_cases t2 : strLt b.tyName a.tyName
    · rw [if_neg t1, if_pos t2] at h; cases h
    · exact strLt_conn (by simpa using t1) (by simpa using t2)

lemma compareMapKeys_le_trans {a b c : GoVal} (hab : kindCoherent a b) (hbc : kindCoherent b c)
    (hna : a.noNaN = true) (hnb : b.noNaN = true) (hnc : c.noNaN = true)
    (h1 : compareMapKeys a b ≤ 0) (h2 : compareMapKeys b c ≤ 0) :
    compareMapKeys a c ≤ 0 := by
  unfold compareMapKeys at *
  by_cases t1 : strLt a.tyName b.tyName
  · by_cases t2 : strLt b.tyName c.tyName
    · rw [if_pos (strLt_trans t1 t2)]; omega
    · by_cases t3 : strLt c.tyName b.tyName
      · rw [if_neg t2, if_pos t3] at h2; omega
      · have e2 : b.tyName = c.tyName := strLt_conn (by simpa using t2) (by simpa using t3)
        rw [if_pos (by rw [← e2]; exact t1)]; omega
  · by_cases t1r : strLt b.tyName a.tyName
    · rw [if_neg t1, if_pos t1r] at h1; omega
    · have e1 : a.tyName = b.tyName := strLt_conn (by simpa using t1) (by simpa using t1r)
      rw [if_neg t1, if_neg t1r] at h1
      by_cases t2 : strLt b.tyName c.tyName
      · rw [if_pos (by rw [e1]; exact t2)]; omega
      · by_cases t3 : strLt c.tyName b.tyName
        · rw [if_neg t2, if_pos t3] at h2; omega
        · have e2 : b.tyName = c.tyName := strLt_conn (by simpa using t2) (by simpa using t3)
          rw [if_neg t2, if_neg t3] at h2
          have hac : a.tyName = c.tyName := e1.trans e2
          rw [if_neg (by rw [hac]; simp [strLt_irrefl]),
            if_neg (by rw [hac]; simp [strLt_irrefl])]
          have g1 : a.ctorTag = b.ctorTag := hab e1
          have g2 : b.ctorTag = c.ctorTag := hbc e2
          rw [innerCmp_eq_pair a b g1 hna hnb] at h1
          rw [innerCmp_eq_pair b c g2 hnb hnc] at h2
          rw [innerCmp_eq_pair a c (g1.trans g2) hna hnc]
          exact pairCmp_le_trans h1 h2

/-- A struct key whose two string fields are `"a "` and `"b"`. -/
def structKeyA : GoVal :=
  .vStruct "main.K" "main" [(true, .vString "string" "a "), (true, .vString "string" "b")]

/-- A different struct key of the same type, fields `"a"` and `" b"` —
its `%v` rendering is the same as `structKeyA`'s. -/
def structKeyB : GoVal :=
  .vStruct "main.K" "main" [(true, .vString "string" "a"), (true, .vString "string" " b")]

/-- The `float64` value 1.0 (pattern 0x3FF0000000000000). -/
def f64One : GoVal := .vFloat 14 "float64" 4607182418800017408

/-- The `float64` value 2.0 (pattern 0x4000000000000000). -/
def f64Two : GoVal := .vFloat 14 "float64" 4611686018427387904

/-- A `float64` NaN (pattern 0x7FF8000000000000, the standard quiet NaN). -/
def f64NaN : GoVal := .vFloat 14 "float64" 9221120237041090560

/-! ### C5 -/

/-- C5 counterexample.  (1) NaN: every IEEE comparison with a NaN is
false, so the Float branch returns 0 against every same-typed key —
`cmp(2.0, NaN) = 0` and `cmp(NaN, 1.0) = 0` while `cmp(2.0, 1.0) = 1`:
transitivity of `≤ 0` fails outright, and zero does not mean equivalent.
(2) Fallback: two distinct same-typed struct keys whose `%v` renderings
coincide compare equal in both directions, so "both zero only for
equivalent keys" also fails without floats. -/
theorem compareMapKeys_collision_cex :
    compareMapKeys f64Two f64NaN = 0 ∧
    compareMapKeys f64NaN f64One = 0 ∧
    compareMapKeys f64Two f64One = 1 ∧
    compareMapKeys structKeyA structKeyB = 0 ∧
    compareMapKeys structKeyB structKeyA = 0 ∧
    structKeyA ≠ structKeyB := by
  refine ⟨by decide, by decide, by decide, by decide, by decide, ?_⟩
  intro hc
  have h2 : ("a " : String) = "a" :=
    congrArg (fun v => match v with
      | GoVal.vStruct _ _ ((_, GoVal.vString _ s) :: _) => s
      | _ => "") hc
  exact absurd h2 (by decide)

/-- C5 amended: `compareMapKeys` is reflexive-zero and sign-antisymmetric
(hence total) on all modelled keys, NaN included, and transitive on
kind-coherent NaN-free keys (same-typed `reflect` values whose top-level
value is not a floating-point NaN); a zero comparison forces equal type
strings — but not equal keys, and with NaN keys even transitivity fails
(see the counterexample: the Float branch compares 0 against a NaN in
both directions). -/
theorem compareMapKeys_total_preorder :
    (∀ a : GoVal, compareMapKeys a a = 0) ∧
    (∀ a b : GoVal, compareMapKeys b a = -compareMapKeys a b) ∧
    (∀ a b c : GoVal, kindCoherent a b → kindCoherent b c →
      a.noNaN = true → b.noNaN = true → c.noNaN = true →
      compareMapKeys a b ≤ 0 → compareMapKeys b c ≤ 0 → compareMapKeys a c ≤ 0) ∧
    (∀ a b : GoVal, compareMapKeys a b = 0 → a.tyName = b.tyName) :=
  ⟨compareMapKeys_refl, compareMapKeys_sign,
   fun _ _ _ hab hbc hna hnb hnc h1 h2 =>
     compareMapKeys_le_trans hab hbc hna hnb hnc h1 h2,
   fun _ _ h => compareMapKeys_zero_ty h⟩

/-- Witness for C5's amended theorem: transitivity at three concrete
keys, a string triple and a NaN-free float triple. -/
theorem compareMapKeys_total_preorder_witness :
    compareMapKeys (.vString "string" "a") (.vString "string" "c") ≤ 0 ∧
    compareMapKeys f64One f64Two ≤ 0 :=
  ⟨compareMapKeys_total_preorder.2.2.1 (.vString "string" "a") (.vString "string" "b")
    (.vString "string" "c") (by decide) (by decide) (by decide) (by decide) (by decide)
    (by decide) (by decide),
   compareMapKeys_total_preorder.2.2.1 f64One f64One f64Two
    (by decide) (by decide) (by decide) (by decide) (by decide)
    (by decide) (by decide)⟩

/-! ### The canonical sort is determined by the key set -/

/-- Entry order as a proposition. -/
def entryLe (p q : GoVal × GoVal) : Prop := keyLe p q = true

lemma keyLe_iff (p q : GoVal × GoVal) : keyLe p q = true ↔ compareMapKeys p.1 q.1 ≤ 0 := by
  simp [keyLe]

lemma keyLe_total (p q : GoVal × GoVal) (h : ¬ keyLe p q = true) : keyLe q p = true := by
  rw [keyLe_iff] at *
  rw [compareMapKeys_sign]
  omega

lemma keyLe_trans {p q r : GoVal × GoVal} (hc1 : kindCoherent p.1 q.1)
    (hc2 : kindCoherent q.1 r.1) (hn1 : p.1.noNaN = true) (hn2 : q.1.noNaN = true)
    (hn3 : r.1.noNaN = true) (h1 : keyLe p q = true) (h2 : keyLe q r = true) :
    keyLe p r = true := by
  rw [keyLe_iff] at *
  exact compareMapKeys_le_trans hc1 hc2 hn1 hn2 hn3 h1 h2

lemma insertEntry_perm (p : GoVal × GoVal) :
    ∀ l, (insertEntry p l).Perm (p :: l) := by
  intro l
  induction l with
  | nil => simp [insertEntry]
  | cons q rest ih =>
    simp only [insertEntry]
    by_cases hle : keyLe p q
    · rw [if_pos hle]
    · rw [if_neg hle]
      exact (ih.cons q).trans (List.Perm.swap p q rest)

lemma sortEntries_perm : ∀ l, (sortEntries l).Perm l := by
  intro l
  induction l with
  | nil => simp [sortEntries]
  | cons p rest ih =>
    simp only [sortEntries]
    exact (insertEntry_perm p (sortEntries rest)).trans (ih.cons p)

lemma insertEntry_sorted (p : GoVal × GoVal) :
    ∀ l, (∀ x ∈ p :: l, ∀ y ∈ p :: l, kindCoherent x.1 y.1) →
      (∀ x ∈ p :: l, x.1.noNaN = true) →
      l.Pairwise entryLe → (insertEntry p l).Pairwise entryLe := by
  intro l
  induction l with
  | nil => intro _ _ _; simp [insertEntry, List.pairwise_cons, entryLe]
  | cons q rest ih =>
    intro hco hnn hs
    obtain ⟨hq, hrest⟩ := List.pairwise_cons.mp hs
    simp only [insertEntry]
    by_cases hle : keyLe p q
    · rw [if_pos hle]
      refine List.pairwise_cons.mpr ⟨?_, hs⟩
      intro y hy
      rcases List.mem_cons.mp hy with h | h
      · subst h; exact hle
      · exact keyLe_trans
          (hco p (by simp) q (by simp))
          (hco q (by simp) y (by simp [h]))
          (hnn p (by simp)) (hnn q (by simp)) (hnn y (by simp [h]))
          hle (hq y h)
    · rw [if_neg hle]
      have hqp : keyLe q p = true := keyLe_total p q hle
      refine List.pairwise_cons.mpr ⟨?_, ?_⟩
      · intro y hy
        have : y ∈ p :: rest := ((insertEntry_perm p rest).mem_iff).mp hy
        rcases List.mem_cons.mp this with h | h
        · subst h; exact hqp
        · exact hq y h
      · refine ih ?_ ?_ hrest
        · intro x hx y hy
          have hx2 : x ∈ p :: q :: rest := by
            rcases List.mem_cons.mp hx with h | h
            · simp [h]
            · simp [h]
          have hy2 : y ∈ p :: q :: rest := by
            rcases List.mem_cons.mp hy with h | h
            · simp [h]
            · simp [h]
          exact hco x hx2 y hy2
        · intro x hx
          have hx2 : x ∈ p :: q :: rest := by
            rcases List.mem_cons.mp hx with h | h
            · simp [h]
            · simp [h]
          exact hnn x hx2

lemma sortEntries_sorted : ∀ l, (∀ x ∈ l, ∀ y ∈ l, kindCoherent x.1 y.1) →
    (∀ x ∈ l, x.1.noNaN = true) →
    (sortEntries l).Pairwise entryLe := by
  intro l
  induction l with
  | nil => intro _ _; simp [sortEntries]
  | cons p rest ih =>
    intro hco hnn
    simp only [sortEntries]
    refine insertEntry_sorted p (sortEntries rest) ?_ ?_
      (ih (fun x hx y hy => hco x (by simp [hx]) y (by simp [hy]))
          (fun x hx => hnn x (by simp [hx])))
    · intro x hx y hy
      have hx2 : x ∈ p :: rest := by
        rcases List.mem_cons.mp hx with h | h
        · simp [h]
        · exact List.mem_cons.mpr (Or.inr ((sortEntries_perm rest).subset h))
      have hy2 : y ∈ p :: rest := by
        rcases List.mem_cons.mp hy with h | h
        · simp [h]
        · exact List.mem_cons.mpr (Or.inr ((sortEntries_perm rest).subset h))
      exact hco x hx2 y hy2
    · intro x hx
      have hx2 : x ∈ p :: rest := by
        rcases List.mem_cons.mp hx with h | h
        · simp [h]
        · exact List.mem_cons.mpr (Or.inr ((sortEntries_perm rest).subset h))
      exact hnn x hx2

/-- Two sorted permutations of an antisymmetric key set are equal. -/
lemma sorted_perm_unique : ∀ (l1 l2 : List (GoVal × GoVal)), l1.Perm l2 →
    l1.Pairwise entryLe → l2.Pairwise entryLe →
    (∀ p ∈ l1, ∀ q ∈ l1, keyLe p q = true → keyLe q p = true → p = q) →
    l1 = l2 := by
  intro l1
  induction l1 with
  | nil => intro l2 hp _ _ _; exact hp.nil_eq
  | cons a t1 ih =>
    intro l2 hp hs1 hs2 hanti
    cases l2 with
    | nil => exact absurd hp.length_eq (by simp)
    | cons b t2 =>
      have hab : a = b := by
        have haIn : a ∈ b :: t2 := hp.subset (by simp)
        have hbIn : b ∈ a :: t1 := hp.symm.subset (by simp)
        rcases List.mem_cons.mp haIn with h | h
        · exact h
        rcases List.mem_cons.mp hbIn with h2 | h2
        · exact h2.symm
        have h3 : keyLe a b = true := (List.pairwise_cons.mp hs1).1 b h2
        have h4 : keyLe b a = true := (List.pairwise_cons.mp hs2).1 a h
        exact hanti a (by simp) b (by simp [h2]) h3 h4
      subst hab
      have hpt : t1.Perm t2 := hp.cons_inv
      rw [ih t2 hpt (List.pairwise_cons.mp hs1).2 (List.pairwise_cons.mp hs2).2
        (fun p hp2 q hq2 => hanti p (by simp [hp2]) q (by simp [hq2]))]

/-- The canonical sort depends only on the entry multiset: any two
insertion orders of the same distinct-key entries sort identically. -/
lemma sortEntries_eq_of_perm (e1 e2 : List (GoVal × GoVal)) (hperm : e1.Perm e2)
    (hco : ∀ p ∈ e1, ∀ q ∈ e1, kindCoherent p.1 q.1)
    (hnn : ∀ p ∈ e1, p.1.noNaN = true)
    (hne : e1.Pairwise fun p q => compareMapKeys p.1 q.1 ≠ 0) :
    sortEntries e1 = sortEntries e2 := by
  have hco2 : ∀ p ∈ e2, ∀ q ∈ e2, kindCoherent p.1 q.1 := fun p hp q hq =>
    hco p (hperm.symm.subset hp) q (hperm.symm.subset hq)
  have hnn2 : ∀ p ∈ e2, p.1.noNaN = true := fun p hp => hnn p (hperm.symm.subset hp)
  refine sorted_perm_unique (sortEntries e1) (sortEntries e2)
    ((sortEntries_perm e1).trans (hperm.trans (sortEntries_perm e2).symm))
    (sortEntries_sorted e1 hco hnn) (sortEntries_sorted e2 hco2 hnn2) ?_
  intro p hp q hq h1 h2
  by_cases hpq : p = q
  · exact hpq
  · have hp1 : p ∈ e1 := (sortEntries_perm e1).subset hp
    have hq1 : q ∈ e1 := (sortEntries_perm e1).subset hq
    have hsym : Symmetric fun p q : GoVal × GoVal => compareMapKeys p.1 q.1 ≠ 0 := by
      intro x y hxy hc
      apply hxy
      rw [compareMapKeys_sign]
      omega
    have hzero : compareMapKeys p.1 q.1 = 0 := by
      rw [keyLe_iff] at h1 h2
      rw [compareMapKeys_sign] at h2
      omega
    exact absurd hzero (List.Pairwise.forall hsym hne hp1 hq1 hpq)

/-- Unfolding of the nonempty-map case: write the tag, then the entries in
canonical order. -/
lemma walkObject_map_case (h : Heap) (fuel d : Nat) (st : St) (ty : String) (i : Nat)
    (en : List (GoVal × GoVal)) (hd : d ≤ 100) (hi : i ∉ st.vis) (hne : en ≠ []) :
    walkObject h (fuel + 1) (.vMap ty (some (i, en))) d st =
      walkPairs (fun v dd s => walkObject h fuel v dd s) (d + 1) (sortEntries en)
        (wr ⟨st.out, i :: st.vis⟩ [UInt8.ofNat 21]) := by
  have hder := deref_nonptr h ty (.vMap ty (some (i, en))) none 100
    (by intro e a hc; cases hc) (by decide)
  have hemp : en.isEmpty = false := by
    cases en with
    | nil => exact absurd rfl hne
    | cons p r => rfl
  simp [walkObject, resolvedStep, entryGuard, GoVal.kind, GoVal.isNilRef, GoVal.refId,
    Nat.not_lt.mpr hd, hi, hder, hemp, GoVal.tyName]

/-! ### C2 -/

set_option maxRecDepth 4000 in
/-- C2 counterexample: the digest is NOT independent of iteration order
for every map.  Two distinct struct keys with equal `%v` renderings
compare 0, so the sort leaves them in iteration order (Go's non-stable
`sort.Slice` likewise does not reorder a 2-element slice with no strict
inversions), and the two iteration orders of the same map produce
different digests. -/
theorem map_iteration_order_cex :
    From hEmpty (.vMap "map[main.K]int" (some (9,
      [(structKeyA, .vInt 2 "int" 1), (structKeyB, .vInt 2 "int" 2)]))) ≠
    From hEmpty (.vMap "map[main.K]int" (some (9,
      [(structKeyB, .vInt 2 "int" 2), (structKeyA, .vInt 2 "int" 1)]))) ∧
    compareMapKeys structKeyA structKeyB = 0 := by
  refine ⟨by decide, by decide⟩

/-- C2 amended: `From` is a pure function of the value, so repeated calls
with fresh equivalent sinks write identical streams; the run-to-run
nondeterminism of the real program is the order in which the runtime
yields a map's entries, modelled here by quantifying over all insertion
orders (list permutations).  For a map whose keys are pairwise strictly
comparable (no two keys compare 0 — true of heterogeneous key sets such
as the spec's example, whose keys differ in type or value) and NaN-free,
every entry order produces the same stream and digest, because the keys
are sorted into the canonical `compareMapKeys` order before encoding.
For tied keys the independence genuinely fails (see the
counterexample). -/
theorem map_digest_order_independent (h : Heap) (ty : String) (i : Nat)
    (e1 e2 : List (GoVal × GoVal)) (hperm : e1.Perm e2)
    (hco : ∀ p ∈ e1, ∀ q ∈ e1, kindCoherent p.1 q.1)
    (hnn : ∀ p ∈ e1, p.1.noNaN = true)
    (hne : e1.Pairwise fun p q => compareMapKeys p.1 q.1 ≠ 0) :
    From h (.vMap ty (some (i, e1))) = From h (.vMap ty (some (i, e2))) := by
  have hsort := sortEntries_eq_of_perm e1 e2 hperm hco hnn hne
  cases e1 with
  | nil =>
    have h2 : e2 = [] := hperm.nil_eq.symm
    subst h2
    rfl
  | cons p rest =>
    have hne2 : e2 ≠ [] := by
      intro hh
      subst hh
      have := hperm.length_eq
      simp at this
    unfold From
    rw [show (102 : Nat) = 101 + 1 from rfl]
    rw [walkObject_map_case h 101 0 ⟨[], []⟩ ty i (p :: rest) (by omega) (by simp)
      (by simp), walkObject_map_case h 101 0 ⟨[], []⟩ ty i e2 (by omega) (by simp) hne2,
      hsort]

/-! ### Reachability, for the indirection-transparency claim -/

/-- The values one encoding step descends into from `v`: the pointee (or
boxed dynamic value) of a pointer, a sequence's elements, a mapping's keys
and values, a record's exported fields. -/
def childVals (h : Heap) : GoVal → List GoVal
  | .vPtr _ (some a) =>
    match h a with
    | .direct w => [w]
    | .ifaceBox (some g) => [g]
    | .ifaceBox none => []
  | .vSlice _ (some r) => r.2
  | .vMap _ (some r) => r.2.map Prod.fst ++ r.2.map Prod.snd
  | .vArray _ es => es
  | .vStruct _ _ fs => exportedFields fs
  | _ => []

/-- `Touches h v a`: the identity `a` is the identity of `v` itself or of
any value reachable from `v` through the heap — the set of identities a
walk rooted at `v` can ever consult. -/
inductive Touches (h : Heap) : GoVal → Nat → Prop where
  | own (v : GoVal) (a : Nat) : v.refId = some a → Touches h v a
  | child (v w : GoVal) (a : Nat) :
      w ∈ childVals h v → Touches h w a → Touches h v a

/-- Identities consulted by the switch on a dereference outcome. -/
def TouchRes (h : Heap) (res : Option GoVal × Option RType) (x : Nat) : Prop :=
  ∃ w, res.1 = some w ∧ ∃ c ∈ childVals h w, Touches h c x

/-- Dereferencing only moves down the reachability order. -/
lemma deref_touch_sub (h : Heap) : ∀ (g : Nat) (v : GoVal) (rt : Option RType) (o : String)
    (w : GoVal) (rt2 : Option RType), deref h o v rt g = .ok (some w, rt2) →
    ∀ x, Touches h w x → Touches h v x := by
  intro g
  induction g with
  | zero => intro v rt o w rt2 hok; simp [deref] at hok
  | succ g ih =>
    intro v rt o w rt2 hok x hx
    match v with
    | .vBool _ _ | .vInt _ _ _ | .vUint _ _ _ | .vFloat _ _ _ | .vComplex _ _ _ _
    | .vString _ _ | .vArray _ _ | .vChan _ | .vFunc _ | .vMap _ _
    | .vSlice _ _ | .vStruct _ _ _ | .vNil =>
      simp only [deref, Except.ok.injEq, Prod.mk.injEq, Option.some.injEq] at hok
      obtain ⟨rfl, -⟩ := hok
      exact hx
    | .vPtr e none =>
      revert hok
      simp only [deref]
      by_cases hg : g = 0
      · rw [if_pos hg]; intro hok; cases hok
      · rw [if_neg hg]; intro hok; simp at hok
    | .vPtr e (some a) =>
      revert hok
      simp only [deref]
      cases hca : h a with
      | direct w1 =>
        intro hok
        exact Touches.child _ w1 x (by simp [childVals, hca]) (ih w1 (some e) o w rt2 hok x hx)
      | ifaceBox o2 =>
        cases o2 with
        | none =>
          by_cases hg : g = 0
          · rw [if_pos hg]; intro hok; cases hok
          · rw [if_neg hg]; intro hok; simp at hok
        | some gv =>
          intro hok
          exact Touches.child _ gv x (by simp [childVals, hca])
            (ih gv (some ⟨gv.tyName, false⟩) o w rt2 hok x hx)

/-- Success of the dereference loop is monotone in the gas, with the same
outcome. -/
lemma deref_gas_mono (h : Heap) : ∀ (g g' : Nat), g ≤ g' →
    ∀ (v : GoVal) (rt : Option RType) (o : String) (res : Option GoVal × Option RType),
    deref h o v rt g = .ok res → deref h o v rt g' = .ok res := by
  intro g
  induction g with
  | zero => intro g' _ v rt o res hok; simp [deref] at hok
  | succ g ih =>
    intro g' hle v rt o res hok
    match g', hle with
    | g2 + 1, hle =>
      match v with
      | .vBool _ _ | .vInt _ _ _ | .vUint _ _ _ | .vFloat _ _ _ | .vComplex _ _ _ _
      | .vString _ _ | .vArray _ _ | .vChan _ | .vFunc _ | .vMap _ _
      | .vSlice _ _ | .vStruct _ _ _ | .vNil => exact hok
      | .vPtr e none =>
        revert hok
        simp only [deref]
        by_cases hg : g = 0
        · rw [if_pos hg]; intro hok; cases hok
        · rw [if_neg hg, if_neg (show ¬ g2 = 0 by omega)]; exact id
      | .vPtr e (some a) =>
        revert hok
        simp only [deref]
        cases hca : h a with
        | direct w1 =>
          intro hok
          exact ih g2 (by omega) w1 (some e) o res hok
        | ifaceBox o2 =>
          cases o2 with
          | none =>
            by_cases hg : g = 0
            · rw [if_pos hg]; intro hok; cases hok
            · rw [if_neg hg, if_neg (show ¬ g2 = 0 by omega)]; exact id
          | some gv =>
            intro hok
            exact ih g2 (by omega) gv (some ⟨gv.tyName, false⟩) o res hok

/-- The `origTy` argument only labels errors; successes are unaffected. -/
lemma deref_o_irrel (h : Heap) : ∀ (g : Nat) (v : GoVal) (rt : Option RType)
    (o1 o2 : String) (res : Option GoVal × Option RType),
    deref h o1 v rt g = .ok res → deref h o2 v rt g = .ok res := by
  intro g
  induction g with
  | zero => intro v rt o1 o2 res hok; simp [deref] at hok
  | succ g ih =>
    intro v rt o1 o2 res hok
    match v with
    | .vBool _ _ | .vInt _ _ _ | .vUint _ _ _ | .vFloat _ _ _ | .vComplex _ _ _ _
    | .vString _ _ | .vArray _ _ | .vChan _ | .vFunc _ | .vMap _ _
    | .vSlice _ _ | .vStruct _ _ _ | .vNil => exact hok
    | .vPtr e none =>
      revert hok
      simp only [deref]
      by_cases hg : g = 0
      · rw [if_pos hg]; intro hok; cases hok
      · rw [if_neg hg, if_neg hg]; exact id
    | .vPtr e (some a) =>
      revert hok
      simp only [deref]
      cases hca : h a with
      | direct w1 =>
        intro hok
        exact ih w1 (some e) o1 o2 res hok
      | ifaceBox o2x =>
        cases o2x with
        | none =>
          by_cases hg : g = 0
          · rw [if_pos hg]; intro hok; cases hok
          · rw [if_neg hg, if_neg hg]; exact id
        | some gv =>
          intro hok
          exact ih gv (some ⟨gv.tyName, false⟩) o1 o2 res hok

/-- The chain of cells 0,…,96 each pointing at the next, cell 97 (and every
other unnamed cell) holding a nil pointer, plus cell 1000 holding a
reference to the head of the chain. -/
def hRefChain : Heap := fun i =>
  if i = 1000 then .direct (.vPtr PT (some 0)) else chainHeap 98 i

set_option maxRecDepth 4000 in
/-- Counterexample to C6: `v = &0` heads a linear (acyclic) 98-pointer
chain; `v` is non-nil and non-self-referential, and `From` digests it to
the bytes of the final invalid value's declared type.  But the reference
to `v` stored at cell 1000 exhausts the per-call pointer budget and fails,
so `digest(reference-to(v)) ≠ digest(v)`. -/
theorem indirection_transparency_cex :
    From hRefChain (.vPtr PT (some 0)) = .ok (strBytes "main.P") ∧
    From hRefChain (.vPtr PT (some 1000)) = .error (.ptrOverflow "*main.P") ∧
    (GoVal.vPtr PT (some 0)).isNilRef = false := by decide

/-- A pointer's dereference ignores the incoming `rt` (the first step
overwrites it). -/
lemma deref_ptr_rt_irrel (h : Heap) (g : Nat) (e : RType) (ad : Option Nat)
    (rt1 rt2 : Option RType) (o : String) :
    deref h o (.vPtr e ad) rt1 g = deref h o (.vPtr e ad) rt2 g := by
  cases g with
  | zero => rfl
  | succ g => rfl

/-- Witness for C2: the spec's example map, inserted in either key
order. -/
theorem map_digest_order_independent_witness :
    From hEmpty (.vMap "map[string]int" (some (9,
      [(.vString "string" "a", .vInt 2 "int" 1), (.vString "string" "b", .vInt 2 "int" 2)]))) =
    From hEmpty (.vMap "map[string]int" (some (9,
      [(.vString "string" "b", .vInt 2 "int" 2), (.vString "string" "a", .vInt 2 "int" 1)]))) :=
  map_digest_order_independent hEmpty "map[string]int" 9
    [(.vString "string" "a", .vInt 2 "int" 1), (.vString "string" "b", .vInt 2 "int" 2)]
    [(.vString "string" "b", .vInt 2 "int" 2), (.vString "string" "a", .vInt 2 "int" 1)]
    (List.Perm.swap _ _ _) (by decide) (by decide) (by decide)

/-- The post-dereference switch never reads the `rt` component of a
resolved concrete value. -/
lemma resolvedStep_rt_irrel (h : Heap) (rec : GoVal → Nat → St → Except Err St)
    (dd : Nat) (v : GoVal) (rt1 rt2 : Option RType) (st : St) :
    resolvedStep h rec dd (some v, rt1) st = resolvedStep h rec dd (some v, rt2) st := by
  cases v <;> rfl

/-- Unfolding `walkObject` once when the guard marks and the dereference
succeeds. -/
lemma walkObject_step (h : Heap) (fuel : Nat) (v : GoVal) (d : Nat) (st0 st1 : St)
    (res : Option GoVal × Option RType) (hd : d ≤ 100)
    (hg : entryGuard v st0 = .inr st1)
    (hder : deref h v.tyName v none 100 = .ok res) :
    walkObject h (fuel + 1) v d st0 =
      resolvedStep h (fun v d s => walkObject h fuel v d s) d res st1 := by
  simp [walkObject, Nat.not_lt.mpr hd, hg, hder]

/-- Unfolding `walkObject` once when the guard returns early. -/
lemma walkObject_guard_inl (h : Heap) (fuel : Nat) (v : GoVal) (d : Nat) (st0 : St)
    (r : Except Err St) (hd : d ≤ 100) (hg : entryGuard v st0 = .inl r) :
    walkObject h (fuel + 1) v d st0 = r := by
  simp [walkObject, Nat.not_lt.mpr hd, hg]

/-- The guard has exactly three visible behaviors: pass the state through
untouched; return early writing a fixed byte string (nil references); or
branch on membership of the value's identity, marking it when fresh. -/
lemma entryGuard_shape (v : GoVal) :
    (∀ (out : List UInt8) (vis : List Nat), entryGuard v ⟨out, vis⟩ = .inr ⟨out, vis⟩) ∨
    (∃ bs, v.isNilRef = true ∧ ∀ (out : List UInt8) (vis : List Nat),
      entryGuard v ⟨out, vis⟩ = .inl (.ok ⟨out ++ bs, vis⟩)) ∨
    (∃ rid, v.refId = some rid ∧ ∀ (out : List UInt8) (vis : List Nat),
      entryGuard v ⟨out, vis⟩ =
        if rid ∈ vis then .inl (.ok ⟨out, vis⟩) else .inr ⟨out, rid :: vis⟩) := by
  cases v with
  | vBool ty b =>
    exact .inl fun out vis => by simp [entryGuard, GoVal.kind, GoVal.isNilRef, GoVal.refId]
  | vInt k ty i =>
    exact .inl fun out vis => by simp [entryGuard, GoVal.kind, GoVal.isNilRef, GoVal.refId]
  | vUint k ty n =>
    exact .inl fun out vis => by simp [entryGuard, GoVal.kind, GoVal.isNilRef, GoVal.refId]
  | vFloat k ty bits =>
    exact .inl fun out vis => by simp [entryGuard, GoVal.kind, GoVal.isNilRef, GoVal.refId]
  | vComplex k ty re im =>
    exact .inl fun out vis => by simp [entryGuard, GoVal.kind, GoVal.isNilRef, GoVal.refId]
  | vString ty s =>
    exact .inl fun out vis => by simp [entryGuard, GoVal.kind, GoVal.isNilRef, GoVal.refId]
  | vArray ty es =>
    exact .inl fun out vis => by simp [entryGuard, GoVal.kind, GoVal.isNilRef, GoVal.refId]
  | vChan ty =>
    exact .inl fun out vis => by simp [entryGuard, GoVal.kind, GoVal.isNilRef, GoVal.refId]
  | vFunc ty =>
    exact .inl fun out vis => by simp [entryGuard, GoVal.kind, GoVal.isNilRef, GoVal.refId]
  | vStruct ty pkg fs =>
    exact .inl fun out vis => by simp [entryGuard, GoVal.kind, GoVal.isNilRef, GoVal.refId]
  | vNil =>
    exact .inl fun out vis => by simp [entryGuard, GoVal.kind, GoVal.isNilRef, GoVal.refId]
  | vPtr e ad =>
    cases ad with
    | none =>
      refine .inr (.inl ⟨strBytes ("*" ++ e.name), rfl, fun out vis => ?_⟩)
      simp [entryGuard, GoVal.kind, GoVal.isNilRef, GoVal.tyName, wr]
    | some a =>
      refine .inr (.inr ⟨a, rfl, fun out vis => ?_⟩)
      simp [entryGuard, GoVal.kind, GoVal.isNilRef, GoVal.refId]
  | vMap ty ref =>
    cases ref with
    | none =>
      refine .inr (.inl ⟨[], rfl, fun out vis => ?_⟩)
      simp [entryGuard, GoVal.kind, GoVal.isNilRef]
    | some r =>
      refine .inr (.inr ⟨r.1, rfl, fun out vis => ?_⟩)
      simp [entryGuard, GoVal.kind, GoVal.isNilRef, GoVal.refId]
  | vSlice ty ref =>
    cases ref with
    | none =>
      refine .inr (.inl ⟨[], rfl, fun out vis => ?_⟩)
      simp [entryGuard, GoVal.kind, GoVal.isNilRef]
    | some r =>
      refine .inr (.inr ⟨r.1, rfl, fun out vis => ?_⟩)
      simp [entryGuard, GoVal.kind, GoVal.isNilRef, GoVal.refId]

/-- Every identity consulted after a dereference is reached through a child
of the original value. -/
lemma deref_touchRes_child (h : Heap) : ∀ (g : Nat) (v : GoVal) (rt : Option RType)
    (o : String) (res : Option GoVal × Option RType), deref h o v rt g = .ok res →
    ∀ x, TouchRes h res x → ∃ c ∈ childVals h v, Touches h c x := by
  intro g
  induction g with
  | zero => intro v rt o res hok; simp [deref] at hok
  | succ g ih =>
    intro v rt o res hok x hx
    match v with
    | .vBool _ _ | .vInt _ _ _ | .vUint _ _ _ | .vFloat _ _ _ | .vComplex _ _ _ _
    | .vString _ _ | .vArray _ _ | .vChan _ | .vFunc _ | .vMap _ _
    | .vSlice _ _ | .vStruct _ _ _ | .vNil =>
      simp only [deref] at hok
      injection hok with h1
      obtain ⟨w, hw, c, hc, ht⟩ := hx
      rw [← h1] at hw
      have hw2 : some _ = some w := hw
      cases Option.some.inj hw2
      exact ⟨c, hc, ht⟩
    | .vPtr e none =>
      revert hok
      simp only [deref]
      by_cases hg0 : g = 0
      · rw [if_pos hg0]; intro hok; cases hok
      · rw [if_neg hg0]
        intro hok
        injection hok with h1
        obtain ⟨w, hw, -⟩ := hx
        rw [← h1] at hw
        simp at hw
    | .vPtr e (some a) =>
      revert hok
      simp only [deref]
      cases hca : h a with
      | direct w1 =>
        intro hok
        obtain ⟨c1, hc1, ht1⟩ := ih w1 (some e) o res hok x hx
        exact ⟨w1, by simp [childVals, hca], Touches.child w1 c1 x hc1 ht1⟩
      | ifaceBox o2 =>
        cases o2 with
        | none =>
          by_cases hg0 : g = 0
          · rw [if_pos hg0]; intro hok; cases hok
          · rw [if_neg hg0]
            intro hok
            injection hok with h1
            obtain ⟨w, hw, -⟩ := hx
            rw [← h1] at hw
            simp at hw
        | some gv =>
          intro hok
          obtain ⟨c1, hc1, ht1⟩ := ih gv (some ⟨gv.tyName, false⟩) o res hok x hx
          exact ⟨gv, by simp [childVals, hca], Touches.child gv c1 x hc1 ht1⟩

/-- Element-loop version of the visited-set invariance: if two visited
sets agree on every identity reachable from the elements, the two runs of
the loop produce the same bytes and the same fresh marks (or the same
error). -/
lemma seq_agree (h : Heap) (fuel : Nat)
    (hw : ∀ (v : GoVal) (d : Nat) (out : List UInt8) (vis1 vis2 : List Nat),
      (∀ x, Touches h v x → (x ∈ vis1 ↔ x ∈ vis2)) →
      (∃ e, walkObject h fuel v d ⟨out, vis1⟩ = .error e ∧
            walkObject h fuel v d ⟨out, vis2⟩ = .error e) ∨
      (∃ out2 A, walkObject h fuel v d ⟨out, vis1⟩ = .ok ⟨out2, A ++ vis1⟩ ∧
                 walkObject h fuel v d ⟨out, vis2⟩ = .ok ⟨out2, A ++ vis2⟩)) :
    ∀ (l : List GoVal) (dd : Nat) (out : List UInt8) (vis1 vis2 : List Nat),
      (∀ c ∈ l, ∀ x, Touches h c x → (x ∈ vis1 ↔ x ∈ vis2)) →
      (∃ e, walkSeq (fun v d s => walkObject h fuel v d s) dd l ⟨out, vis1⟩ = .error e ∧
            walkSeq (fun v d s => walkObject h fuel v d s) dd l ⟨out, vis2⟩ = .error e) ∨
      (∃ out2 A,
        walkSeq (fun v d s => walkObject h fuel v d s) dd l ⟨out, vis1⟩ = .ok ⟨out2, A ++ vis1⟩ ∧
        walkSeq (fun v d s => walkObject h fuel v d s) dd l ⟨out, vis2⟩ = .ok ⟨out2, A ++ vis2⟩) := by
  intro l
  induction l with
  | nil =>
    intro dd out vis1 vis2 _
    exact .inr ⟨out, [], rfl, rfl⟩
  | cons c rest ihl =>
    intro dd out vis1 vis2 hag
    rcases hw c dd out vis1 vis2 (fun x hx => hag c (by simp) x hx) with
      ⟨e, h1, h2⟩ | ⟨out2, A, h1, h2⟩
    · exact .inl ⟨e, by simp [walkSeq, h1], by simp [walkSeq, h2]⟩
    · have hag2 : ∀ c' ∈ rest, ∀ x, Touches h c' x → (x ∈ A ++ vis1 ↔ x ∈ A ++ vis2) := by
        intro c' hc' x hx
        have := hag c' (by simp [hc']) x hx
        simp only [List.mem_append]
        tauto
      rcases ihl dd out2 (A ++ vis1) (A ++ vis2) hag2 with ⟨e, g1, g2⟩ | ⟨out3, B, g1, g2⟩
      · exact .inl ⟨e, by simp [walkSeq, h1, g1], by simp [walkSeq, h2, g2]⟩
      · refine .inr ⟨out3, B ++ A, ?_, ?_⟩
        · simp [walkSeq, h1, g1, List.append_assoc]
        · simp [walkSeq, h2, g2, List.append_assoc]

/-- Key/value-loop version of the visited-set invariance. -/
lemma pairs_agree (h : Heap) (fuel : Nat)
    (hw : ∀ (v : GoVal) (d : Nat) (out : List UInt8) (vis1 vis2 : List Nat),
      (∀ x, Touches h v x → (x ∈ vis1 ↔ x ∈ vis2)) →
      (∃ e, walkObject h fuel v d ⟨out, vis1⟩ = .error e ∧
            walkObject h fuel v d ⟨out, vis2⟩ = .error e) ∨
      (∃ out2 A, walkObject h fuel v d ⟨out, vis1⟩ = .ok ⟨out2, A ++ vis1⟩ ∧
                 walkObject h fuel v d ⟨out, vis2⟩ = .ok ⟨out2, A ++ vis2⟩)) :
    ∀ (l : List (GoVal × GoVal)) (dd : Nat) (out : List UInt8) (vis1 vis2 : List Nat),
      (∀ p ∈ l, ∀ x, (Touches h p.1 x ∨ Touches h p.2 x) → (x ∈ vis1 ↔ x ∈ vis2)) →
      (∃ e, walkPairs (fun v d s => walkObject h fuel v d s) dd l ⟨out, vis1⟩ = .error e ∧
            walkPairs (fun v d s => walkObject h fuel v d s) dd l ⟨out, vis2⟩ = .error e) ∨
      (∃ out2 A,
        walkPairs (fun v d s => walkObject h fuel v d s) dd l ⟨out, vis1⟩ = .ok ⟨out2, A ++ vis1⟩ ∧
        walkPairs (fun v d s => walkObject h fuel v d s) dd l ⟨out, vis2⟩ = .ok ⟨out2, A ++ vis2⟩) := by
  intro l
  induction l with
  | nil =>
    intro dd out vis1 vis2 _
    exact .inr ⟨out, [], rfl, rfl⟩
  | cons p rest ihl =>
    intro dd out vis1 vis2 hag
    rcases hw p.1 dd out vis1 vis2 (fun x hx => hag p (by simp) x (.inl hx)) with
      ⟨e, h1, h2⟩ | ⟨out2, A, h1, h2⟩
    · exact .inl ⟨e, by simp [walkPairs, h1], by simp [walkPairs, h2]⟩
    · have hagv : ∀ x, Touches h p.2 x → (x ∈ A ++ vis1 ↔ x ∈ A ++ vis2) := by
        intro x hx
        have := hag p (by simp) x (.inr hx)
        simp only [List.mem_append]
        tauto
      rcases hw p.2 dd out2 (A ++ vis1) (A ++ vis2) hagv with ⟨e, k1, k2⟩ | ⟨out3, B, k1, k2⟩
      · exact .inl ⟨e, by simp [walkPairs, h1, k1], by simp [walkPairs, h2, k2]⟩
      · have hag2 : ∀ q ∈ rest, ∀ x, (Touches h q.1 x ∨ Touches h q.2 x) →
            (x ∈ B ++ (A ++ vis1) ↔ x ∈ B ++ (A ++ vis2)) := by
          intro q hq x hx
          have := hag q (by simp [hq]) x hx
          simp only [List.mem_append]
          tauto
        rcases ihl dd out3 (B ++ (A ++ vis1)) (B ++ (A ++ vis2)) hag2 with
          ⟨e, g1, g2⟩ | ⟨out4, C, g1, g2⟩
        · exact .inl ⟨e, by simp [walkPairs, h1, k1, g1], by simp [walkPairs, h2, k2, g2]⟩
        · refine .inr ⟨out4, C ++ B ++ A, ?_, ?_⟩
          · simp [walkPairs, h1, k1, g1, List.append_assoc]
          · simp [walkPairs, h2, k2, g2, List.append_assoc]

/-- Post-dereference-switch version of the visited-set invariance: two
runs from visited sets that agree on every identity the switch can consult
produce the same bytes and the same fresh marks (or the same error). -/
lemma resolved_agree (h : Heap) (fuel : Nat)
    (hw : ∀ (v : GoVal) (d : Nat) (out : List UInt8) (vis1 vis2 : List Nat),
      (∀ x, Touches h v x → (x ∈ vis1 ↔ x ∈ vis2)) →
      (∃ e, walkObject h fuel v d ⟨out, vis1⟩ = .error e ∧
            walkObject h fuel v d ⟨out, vis2⟩ = .error e) ∨
      (∃ out2 A, walkObject h fuel v d ⟨out, vis1⟩ = .ok ⟨out2, A ++ vis1⟩ ∧
                 walkObject h fuel v d ⟨out, vis2⟩ = .ok ⟨out2, A ++ vis2⟩)) :
    ∀ (res : Option GoVal × Option RType) (dd : Nat) (out : List UInt8) (vis1 vis2 : List Nat),
      (∀ x, TouchRes h res x → (x ∈ vis1 ↔ x ∈ vis2)) →
      (∃ e, resolvedStep h (fun v d s => walkObject h fuel v d s) dd res ⟨out, vis1⟩ = .error e ∧
            resolvedStep h (fun v d s => walkObject h fuel v d s) dd res ⟨out, vis2⟩ = .error e) ∨
      (∃ out2 A,
        resolvedStep h (fun v d s => walkObject h fuel v d s) dd res ⟨out, vis1⟩ =
          .ok ⟨out2, A ++ vis1⟩ ∧
        resolvedStep h (fun v d s => walkObject h fuel v d s) dd res ⟨out, vis2⟩ =
          .ok ⟨out2, A ++ vis2⟩) := by
  intro res dd out vis1 vis2 hag
  rcases res with ⟨ov, rt⟩
  cases ov with
  | none =>
    cases rt with
    | none => exact .inr ⟨out, [], rfl, rfl⟩
    | some r =>
      cases hri : r.isIface with
      | true => refine .inr ⟨out, [], ?_, ?_⟩ <;> simp [resolvedStep, hri]
      | false => refine .inr ⟨out ++ strBytes r.name, [], ?_, ?_⟩ <;> simp [resolvedStep, hri, wr]
  | some v =>
    have hagc : ∀ c ∈ childVals h v, ∀ x, Touches h c x → (x ∈ vis1 ↔ x ∈ vis2) := by
      intro c hc x hx
      exact hag x ⟨v, rfl, c, hc, hx⟩
    cases v with
    | vBool ty b => exact .inr ⟨_, [], rfl, rfl⟩
    | vInt k ty i => exact .inr ⟨_, [], rfl, rfl⟩
    | vUint k ty n => exact .inr ⟨_, [], rfl, rfl⟩
    | vFloat k ty bits => exact .inr ⟨_, [], rfl, rfl⟩
    | vComplex k ty re im => exact .inr ⟨_, [], rfl, rfl⟩
    | vString ty s => exact .inr ⟨_, [], rfl, rfl⟩
    | vChan ty => exact .inr ⟨_, [], rfl, rfl⟩
    | vFunc ty => exact .inr ⟨_, [], rfl, rfl⟩
    | vNil => exact .inr ⟨_, [], rfl, rfl⟩
    | vPtr e ad => exact .inr ⟨_, [], rfl, rfl⟩
    | vArray ty es =>
      cases hes : es.isEmpty with
      | true => refine .inr ⟨out ++ strBytes ty, [], ?_, ?_⟩ <;> simp [resolvedStep, hes, wr]
      | false =>
        have hstep : ∀ vis,
            resolvedStep h (fun v d s => walkObject h fuel v d s) dd
              (some (.vArray ty es), rt) ⟨out, vis⟩ =
            walkSeq (fun v d s => walkObject h fuel v d s) (dd + 1) es
              ⟨out ++ [UInt8.ofNat 17], vis⟩ := by
          intro vis
          simp [resolvedStep, hes, wr, GoVal.kind]
        rcases seq_agree h fuel hw es (dd + 1) (out ++ [UInt8.ofNat 17]) vis1 vis2
            (fun c hc x hx => hagc c (by simp [childVals, hc]) x hx) with
          ⟨e, h1, h2⟩ | ⟨out2, A, h1, h2⟩
        · exact .inl ⟨e, by rw [hstep vis1]; exact h1, by rw [hstep vis2]; exact h2⟩
        · exact .inr ⟨out2, A, by rw [hstep vis1]; exact h1, by rw [hstep vis2]; exact h2⟩
    | vSlice ty ref =>
      cases ref with
      | none => refine .inr ⟨out ++ strBytes ty, [], ?_, ?_⟩ <;> simp [resolvedStep, wr]
      | some r =>
        cases hes : r.2.isEmpty with
        | true => refine .inr ⟨out ++ strBytes ty, [], ?_, ?_⟩ <;> simp [resolvedStep, hes, wr]
        | false =>
          have hstep : ∀ vis,
              resolvedStep h (fun v d s => walkObject h fuel v d s) dd
                (some (.vSlice ty (some r)), rt) ⟨out, vis⟩ =
              walkSeq (fun v d s => walkObject h fuel v d s) (dd + 1) r.2
                ⟨out ++ [UInt8.ofNat 23], vis⟩ := by
            intro vis
            simp [resolvedStep, hes, wr, GoVal.kind]
          rcases seq_agree h fuel hw r.2 (dd + 1) (out ++ [UInt8.ofNat 23]) vis1 vis2
              (fun c hc x hx => hagc c (by simp [childVals, hc]) x hx) with
            ⟨e, h1, h2⟩ | ⟨out2, A, h1, h2⟩
          · exact .inl ⟨e, by rw [hstep vis1]; exact h1, by rw [hstep vis2]; exact h2⟩
          · exact .inr ⟨out2, A, by rw [hstep vis1]; exact h1, by rw [hstep vis2]; exact h2⟩
    | vMap ty ref =>
      cases ref with
      | none => refine .inr ⟨out ++ strBytes ty, [], ?_, ?_⟩ <;> simp [resolvedStep, wr]
      | some r =>
        cases hes : r.2.isEmpty with
        | true => refine .inr ⟨out ++ strBytes ty, [], ?_, ?_⟩ <;> simp [resolvedStep, hes, wr]
        | false =>
          have hstep : ∀ vis,
              resolvedStep h (fun v d s => walkObject h fuel v d s) dd
                (some (.vMap ty (some r)), rt) ⟨out, vis⟩ =
              walkPairs (fun v d s => walkObject h fuel v d s) (dd + 1) (sortEntries r.2)
                ⟨out ++ [UInt8.ofNat 21], vis⟩ := by
            intro vis
            simp [resolvedStep, hes, wr, GoVal.kind]
          rcases pairs_agree h fuel hw (sortEntries r.2) (dd + 1) (out ++ [UInt8.ofNat 21])
              vis1 vis2 (by
                intro p hp x hx
                have hpm : p ∈ r.2 := ((sortEntries_perm r.2).mem_iff).mp hp
                rcases hx with hx1 | hx2
                · refine hagc p.1 ?_ x hx1
                  show p.1 ∈ r.2.map Prod.fst ++ r.2.map Prod.snd
                  exact List.mem_append_left _ (List.mem_map_of_mem _ hpm)
                · refine hagc p.2 ?_ x hx2
                  show p.2 ∈ r.2.map Prod.fst ++ r.2.map Prod.snd
                  exact List.mem_append_right _ (List.mem_map_of_mem _ hpm)) with
            ⟨e, h1, h2⟩ | ⟨out2, A, h1, h2⟩
          · exact .inl ⟨e, by rw [hstep vis1]; exact h1, by rw [hstep vis2]; exact h2⟩
          · exact .inr ⟨out2, A, by rw [hstep vis1]; exact h1, by rw [hstep vis2]; exact h2⟩
    | vStruct ty pkg fs =>
      cases hfs : fs.isEmpty with
      | true =>
        refine .inr ⟨out ++ (strBytes ty ++ strBytes pkg), [], ?_, ?_⟩ <;>
          simp [resolvedStep, hfs, wr]
      | false =>
        have hstep : ∀ vis,
            resolvedStep h (fun v d s => walkObject h fuel v d s) dd
              (some (.vStruct ty pkg fs), rt) ⟨out, vis⟩ =
            walkSeq (fun v d s => walkObject h fuel v d s) (dd + 1) (exportedFields fs)
              ⟨out ++ (strBytes ty ++ strBytes pkg) ++ [UInt8.ofNat 25], vis⟩ := by
          intro vis
          simp [resolvedStep, hfs, wr, GoVal.kind]
        rcases seq_agree h fuel hw (exportedFields fs) (dd + 1)
            (out ++ (strBytes ty ++ strBytes pkg) ++ [UInt8.ofNat 25]) vis1 vis2
            (fun c hc x hx => hagc c (by simp [childVals, hc]) x hx) with
          ⟨e, h1, h2⟩ | ⟨out2, A, h1, h2⟩
        · exact .inl ⟨e, by rw [hstep vis1]; exact h1, by rw [hstep vis2]; exact h2⟩
        · exact .inr ⟨out2, A, by rw [hstep vis1]; exact h1, by rw [hstep vis2]; exact h2⟩

/-- Visited-set invariance of the walk: two runs whose initial visited
sets agree on every identity reachable from the input produce the same
byte stream and the same fresh marks (prepended, in order), or fail with
the same error. -/
lemma walk_agree (h : Heap) : ∀ (fuel : Nat) (v : GoVal) (d : Nat) (out : List UInt8)
    (vis1 vis2 : List Nat),
    (∀ x, Touches h v x → (x ∈ vis1 ↔ x ∈ vis2)) →
    (∃ e, walkObject h fuel v d ⟨out, vis1⟩ = .error e ∧
          walkObject h fuel v d ⟨out, vis2⟩ = .error e) ∨
    (∃ out2 A, walkObject h fuel v d ⟨out, vis1⟩ = .ok ⟨out2, A ++ vis1⟩ ∧
               walkObject h fuel v d ⟨out, vis2⟩ = .ok ⟨out2, A ++ vis2⟩) := by
  intro fuel
  induction fuel with
  | zero =>
    intro v d out vis1 vis2 _
    exact .inl ⟨.outOfFuel, rfl, rfl⟩
  | succ fuel ih =>
    intro v d out vis1 vis2 hagree
    by_cases hd : d > 100
    · exact .inl ⟨.depthExceeded v.tyName, by simp [walkObject, hd], by simp [walkObject, hd]⟩
    have hd' : d ≤ 100 := by omega
    rcases entryGuard_shape v with hpass | ⟨bs, _, hnil⟩ | ⟨rid, hrid, hg⟩
    · cases hder : deref h v.tyName v none 100 with
      | error e =>
        exact .inl ⟨e,
          walkObject_guard_inr_deref_error h fuel d ⟨out, vis1⟩ ⟨out, vis1⟩ v e hd'
            (hpass out vis1) hder,
          walkObject_guard_inr_deref_error h fuel d ⟨out, vis2⟩ ⟨out, vis2⟩ v e hd'
            (hpass out vis2) hder⟩
      | ok res =>
        have ht : ∀ x, TouchRes h res x → (x ∈ vis1 ↔ x ∈ vis2) := by
          intro x hx
          obtain ⟨c, hc, hcx⟩ := deref_touchRes_child h 100 v none v.tyName res hder x hx
          exact hagree x (Touches.child v c x hc hcx)
        rcases resolved_agree h fuel ih res d out vis1 vis2 ht with
          ⟨e, h1, h2⟩ | ⟨out2, A, h1, h2⟩
        · exact .inl ⟨e,
            by rw [walkObject_step h fuel v d ⟨out, vis1⟩ ⟨out, vis1⟩ res hd'
                (hpass out vis1) hder]; exact h1,
            by rw [walkObject_step h fuel v d ⟨out, vis2⟩ ⟨out, vis2⟩ res hd'
                (hpass out vis2) hder]; exact h2⟩
        · exact .inr ⟨out2, A,
            by rw [walkObject_step h fuel v d ⟨out, vis1⟩ ⟨out, vis1⟩ res hd'
                (hpass out vis1) hder]; exact h1,
            by rw [walkObject_step h fuel v d ⟨out, vis2⟩ ⟨out, vis2⟩ res hd'
                (hpass out vis2) hder]; exact h2⟩
    · refine .inr ⟨out ++ bs, [], ?_, ?_⟩
      · rw [walkObject_guard_inl h fuel v d ⟨out, vis1⟩ _ hd' (hnil out vis1)]
        rfl
      · rw [walkObject_guard_inl h fuel v d ⟨out, vis2⟩ _ hd' (hnil out vis2)]
        rfl
    · by_cases hmem : rid ∈ vis1
      · have hmem2 : rid ∈ vis2 := (hagree rid (Touches.own v rid hrid)).mp hmem
        refine .inr ⟨out, [], ?_, ?_⟩
        · rw [walkObject_guard_inl h fuel v d ⟨out, vis1⟩ _ hd'
            (by rw [hg out vis1, if_pos hmem])]
          rfl
        · rw [walkObject_guard_inl h fuel v d ⟨out, vis2⟩ _ hd'
            (by rw [hg out vis2, if_pos hmem2])]
          rfl
      · have hmem2 : rid ∉ vis2 := fun hc => hmem ((hagree rid (Touches.own v rid hrid)).mpr hc)
        have hg1 : entryGuard v ⟨out, vis1⟩ = .inr ⟨out, rid :: vis1⟩ := by
          rw [hg out vis1, if_neg hmem]
        have hg2 : entryGuard v ⟨out, vis2⟩ = .inr ⟨out, rid :: vis2⟩ := by
          rw [hg out vis2, if_neg hmem2]
        cases hder : deref h v.tyName v none 100 with
        | error e =>
          exact .inl ⟨e,
            walkObject_guard_inr_deref_error h fuel d ⟨out, vis1⟩ ⟨out, rid :: vis1⟩ v e hd'
              hg1 hder,
            walkObject_guard_inr_deref_error h fuel d ⟨out, vis2⟩ ⟨out, rid :: vis2⟩ v e hd'
              hg2 hder⟩
        | ok res =>
          have ht : ∀ x, TouchRes h res x → (x ∈ rid :: vis1 ↔ x ∈ rid :: vis2) := by
            intro x hx
            obtain ⟨c, hc, hcx⟩ := deref_touchRes_child h 100 v none v.tyName res hder x hx
            have := hagree x (Touches.child v c x hc hcx)
            simp only [List.mem_cons]
            tauto
          rcases resolved_agree h fuel ih res d out (rid :: vis1) (rid :: vis2) ht with
            ⟨e, h1, h2⟩ | ⟨out2, A, h1, h2⟩
          · exact .inl ⟨e,
              by rw [walkObject_step h fuel v d ⟨out, vis1⟩ ⟨out, rid :: vis1⟩ res hd'
                  hg1 hder]; exact h1,
              by rw [walkObject_step h fuel v d ⟨out, vis2⟩ ⟨out, rid :: vis2⟩ res hd'
                  hg2 hder]; exact h2⟩
          · refine .inr ⟨out2, A ++ [rid], ?_, ?_⟩
            · rw [walkObject_step h fuel v d ⟨out, vis1⟩ ⟨out, rid :: vis1⟩ res hd' hg1 hder,
                h1, List.append_cons]
            · rw [walkObject_step h fuel v d ⟨out, vis2⟩ ⟨out, rid :: vis2⟩ res hd' hg2 hder,
                h2, List.append_cons]

/-- C6 amended: for a non-nil value `v` (stored in cell `a`) that does not
reach the fresh reference's own identity `a`, does not reach its own
identity through its children (non-self-referential), and whose
dereference succeeds within the reference's remaining pointer budget
(gas 99 — one pointer already spent on the reference itself), digesting
the reference `&v` equals digesting `v`: the indirection itself emits no
bytes, and the extra identity marked by the reference (resp. by `v`'s own
guard) is never consulted again.  The budget hypothesis is essential: the
counterexample shows a 98-pointer chain whose direct digest succeeds while
its reference's digest fails. -/
theorem indirection_transparency (h : Heap) (e : RType) (a : Nat) (v : GoVal)
    (hcell : h a = .direct v)
    (hnn : v.isNilRef = false)
    (hfresh : ¬ Touches h v a)
    (hnoself : ∀ rid, v.refId = some rid → ∀ c ∈ childVals h v, ¬ Touches h c rid)
    (hgas : ∃ res, deref h ("*" ++ e.name) v (some e) 99 = .ok res) :
    From h (.vPtr e (some a)) = From h v := by
  obtain ⟨res, hres⟩ := hgas
  have hderL : deref h (GoVal.tyName (.vPtr e (some a))) (.vPtr e (some a)) none 100 =
      .ok res := by
    show deref h ("*" ++ e.name) (.vPtr e (some a)) none 100 = .ok res
    rw [show (100 : Nat) = 99 + 1 from rfl]
    simp only [deref]
    rw [hcell]
    exact hres
  have hgL : entryGuard (.vPtr e (some a)) ⟨[], []⟩ = .inr ⟨[], [a]⟩ := by
    simp [entryGuard, GoVal.kind, GoVal.isNilRef, GoVal.refId]
  have hL : walkObject h 102 (.vPtr e (some a)) 0 ⟨[], []⟩ =
      resolvedStep h (fun v d s => walkObject h 101 v d s) 0 res ⟨[], [a]⟩ := by
    rw [show (102 : Nat) = 101 + 1 from rfl]
    exact walkObject_step h 101 _ 0 ⟨[], []⟩ ⟨[], [a]⟩ res (by omega) hgL hderL
  have hTa : ∀ x, TouchRes h res x → x ≠ a := by
    intro x hx hxa
    obtain ⟨c, hc, hcx⟩ := deref_touchRes_child h 99 v (some e) ("*" ++ e.name) res hres x hx
    subst hxa
    exact hfresh (Touches.child v c x hc hcx)
  have hclass : (∀ (e2 : RType) (ad : Option Nat), v ≠ .vPtr e2 ad) ∨
      ∃ e2 ad, v = .vPtr e2 ad := by
    cases v
    case vPtr e2 ad => exact .inr ⟨e2, ad, rfl⟩
    all_goals exact .inl fun e2 ad h2 => by cases h2
  rcases hclass with hv | ⟨e2, ad, rfl⟩
  · -- `v` is not a pointer: the reference's dereference stopped at `v` itself.
    have hres2 : res = (some v, some e) := by
      have hd9 := deref_nonptr h ("*" ++ e.name) v (some e) 99 hv (by omega)
      rw [hd9] at hres
      injection hres with h2
      exact h2.symm
    have hderR : deref h v.tyName v none 100 = .ok (some v, none) :=
      deref_nonptr h v.tyName v none 100 hv (by omega)
    rcases entryGuard_shape v with hpass | ⟨bs, hnil, _⟩ | ⟨rid, hrid, hg⟩
    · have hR : walkObject h 102 v 0 ⟨[], []⟩ =
          resolvedStep h (fun v d s => walkObject h 101 v d s) 0 (some v, none) ⟨[], []⟩ := by
        rw [show (102 : Nat) = 101 + 1 from rfl]
        exact walkObject_step h 101 v 0 ⟨[], []⟩ ⟨[], []⟩ _ (by omega) (hpass [] []) hderR
      have hT : ∀ x, TouchRes h res x → (x ∈ ([a] : List Nat) ↔ x ∈ ([] : List Nat)) := by
        intro x hx
        constructor
        · intro hxa
          exact absurd (List.mem_singleton.mp hxa) (hTa x hx)
        · intro hx0
          exact absurd hx0 (List.not_mem_nil x)
      rcases resolved_agree h 101 (walk_agree h 101) res 0 [] [a] [] hT with
        ⟨er, h1, h2⟩ | ⟨out2, A, h1, h2⟩
      · have h2' : resolvedStep h (fun v d s => walkObject h 101 v d s) 0 (some v, none)
            ⟨[], []⟩ = .error er := by
          rw [resolvedStep_rt_irrel h _ 0 v none (some e), ← hres2]
          exact h2
        simp only [From, hL, hR, h1, h2']
      · have h2' : resolvedStep h (fun v d s => walkObject h 101 v d s) 0 (some v, none)
            ⟨[], []⟩ = .ok ⟨out2, A ++ []⟩ := by
          rw [resolvedStep_rt_irrel h _ 0 v none (some e), ← hres2]
          exact h2
        simp only [From, hL, hR, h1, h2']
    · rw [hnn] at hnil
      cases hnil
    · have hg1 : entryGuard v ⟨[], []⟩ = .inr ⟨[], [rid]⟩ := by
        rw [hg [] [], if_neg (List.not_mem_nil rid)]
      have hR : walkObject h 102 v 0 ⟨[], []⟩ =
          resolvedStep h (fun v d s => walkObject h 101 v d s) 0 (some v, none)
            ⟨[], [rid]⟩ := by
        rw [show (102 : Nat) = 101 + 1 from rfl]
        exact walkObject_step h 101 v 0 ⟨[], []⟩ ⟨[], [rid]⟩ _ (by omega) hg1 hderR
      have hTb : ∀ x, TouchRes h res x → x ≠ rid := by
        intro x hx hxb
        obtain ⟨w, hw, c, hc, hcx⟩ := hx
        rw [hres2] at hw
        have hw2 : some v = some w := hw
        cases Option.some.inj hw2
        subst hxb
        exact hnoself x hrid c hc hcx
      have hT : ∀ x, TouchRes h res x → (x ∈ ([a] : List Nat) ↔ x ∈ ([rid] : List Nat)) := by
        intro x hx
        simp only [List.mem_singleton]
        exact iff_of_false (hTa x hx) (hTb x hx)
      rcases resolved_agree h 101 (walk_agree h 101) res 0 [] [a] [rid] hT with
        ⟨er, h1, h2⟩ | ⟨out2, A, h1, h2⟩
      · have h2' : resolvedStep h (fun v d s => walkObject h 101 v d s) 0 (some v, none)
            ⟨[], [rid]⟩ = .error er := by
          rw [resolvedStep_rt_irrel h _ 0 v none (some e), ← hres2]
          exact h2
        simp only [From, hL, hR, h1, h2']
      · have h2' : resolvedStep h (fun v d s => walkObject h 101 v d s) 0 (some v, none)
            ⟨[], [rid]⟩ = .ok ⟨out2, A ++ [rid]⟩ := by
          rw [resolvedStep_rt_irrel h _ 0 v none (some e), ← hres2]
          exact h2
        simp only [From, hL, hR, h1, h2']
  · -- `v` is itself a pointer: both dereferences resolve to the same outcome.
    cases ad with
    | none => simp [GoVal.isNilRef] at hnn
    | some b =>
      have h1 := hres
      rw [deref_ptr_rt_irrel h 99 e2 (some b) (some e) none ("*" ++ e.name)] at h1
      have h2g := deref_gas_mono h 99 100 (by omega) (.vPtr e2 (some b)) none
        ("*" ++ e.name) res h1
      have hderR : deref h (GoVal.tyName (.vPtr e2 (some b))) (.vPtr e2 (some b)) none 100 =
          .ok res :=
        deref_o_irrel h 100 (.vPtr e2 (some b)) none ("*" ++ e.name) _ res h2g
      have hgR : entryGuard (.vPtr e2 (some b)) ⟨[], []⟩ = .inr ⟨[], [b]⟩ := by
        simp [entryGuard, GoVal.kind, GoVal.isNilRef, GoVal.refId]
      have hR : walkObject h 102 (.vPtr e2 (some b)) 0 ⟨[], []⟩ =
          resolvedStep h (fun v d s => walkObject h 101 v d s) 0 res ⟨[], [b]⟩ := by
        rw [show (102 : Nat) = 101 + 1 from rfl]
        exact walkObject_step h 101 _ 0 ⟨[], []⟩ ⟨[], [b]⟩ res (by omega) hgR hderR
      have hTb : ∀ x, TouchRes h res x → x ≠ b := by
        intro x hx hxb
        obtain ⟨c, hc, hcx⟩ := deref_touchRes_child h 99 (.vPtr e2 (some b)) (some e)
          ("*" ++ e.name) res hres x hx
        subst hxb
        exact hnoself x rfl c hc hcx
      have hT : ∀ x, TouchRes h res x → (x ∈ ([a] : List Nat) ↔ x ∈ ([b] : List Nat)) := by
        intro x hx
        simp only [List.mem_singleton]
        exact iff_of_false (hTa x hx) (hTb x hx)
      rcases resolved_agree h 101 (walk_agree h 101) res 0 [] [a] [b] hT with
        ⟨er, h1e, h2e⟩ | ⟨out2, A, h1o, h2o⟩
      · simp only [From, hL, hR, h1e, h2e]
      · simp only [From, hL, hR, h1o, h2o]

/-- A heap whose every cell holds the plain int 7. -/
def hIntCell : Heap := fun _ => .direct (.vInt 2 "int" 7)

/-- Witness for C6's amended theorem at a concrete input: a reference to a
plain int digests like the int itself. -/
theorem indirection_transparency_witness :
    From hIntCell (.vPtr ⟨"int", false⟩ (some 5)) = From hIntCell (.vInt 2 "int" 7) :=
  indirection_transparency hIntCell ⟨"int", false⟩ 5 (.vInt 2 "int" 7) rfl rfl
    (by
      intro ht
      cases ht with
      | own _ _ hr => cases hr
      | child _ w _ hm _ => cases hm)
    (by intro rid hr; cases hr)
    ⟨(some (.vInt 2 "int" 7), some ⟨"int", false⟩), rfl⟩

end GohashFV

